import Mathlib

/-!
# Student roster (`js/script.js`): a shallow embedding

The classes `Student` and `StudentGroup` and the validation functions of
`js/script.js`, translated to Lean definitions, and the properties of the
roster proved about them.

Conventions of the embedding.

* A JavaScript string is its sequence of UTF-16 code units (`JSString`);
  `includes`, `===` and `<` on strings act on code units, as in ECMAScript.
* A JavaScript number is `JSNumber`: `NaN`, the two infinities, or a finite
  value given by the rational it denotes (`-0` is identified with `0`: no
  operation used by the program tells them apart).
* What the program takes from its host and cannot be written down from the
  source (Unicode lower-casing, `Date` parsing, `Number::toString` outside the
  case `toFixed` spells out) is a field of `Platform`. The theorems hold for
  every platform; where an example is about ASCII text, or a text written by
  `Number::toString` is read back, the fact about the platform that is used is
  a hypothesis (`AsciiLower`, `DigitLed`).
* `Array.prototype.sort` is the sort of V8 for an array of fewer than 64
  elements (`arraySort`): ECMAScript fixes the result, a stable sort, only for
  a consistent comparison function, and the program's is not consistent when
  a sort key is `NaN`.
* `localStorage` holds the array that the stored JSON text denotes
  (`LocalStorage`): `JSON.parse(JSON.stringify(v))` gives back the strings and
  the finite numbers of `v`.
-/

namespace Coursework

/-! ## Strings -/

/-- A JavaScript string: the list of its UTF-16 code units. -/
abbrev JSString := List Nat

/-- The UTF-16 code units of one Unicode scalar value. -/
def utf16Units (c : Char) : List Nat :=
  if c.toNat < 65536 then [c.toNat]
  else [55296 + (c.toNat - 65536) / 1024, 56320 + (c.toNat - 65536) % 1024]

/-- The JavaScript string written as the literal `s`. -/
def js (s : String) : JSString :=
  s.data.foldr (fun c acc => utf16Units c ++ acc) []

/-- `s.includes(t)`: `t` occurs in `s` at some position. -/
def includes : JSString → JSString → Bool
  | [], t => t.isPrefixOf []
  | c :: s, t => t.isPrefixOf (c :: s) || includes s t

/-- The characters matched by `\s` in a regular expression, which are also the
ones `trim` removes: ECMAScript WhiteSpace and LineTerminator. -/
def isWhiteSpace (c : Nat) : Bool :=
  c == 9 || c == 10 || c == 11 || c == 12 || c == 13 || c == 32 || c == 160 ||
  c == 5760 || (8192 ≤ c && c ≤ 8202) || c == 8232 || c == 8233 || c == 8239 ||
  c == 8287 || c == 12288 || c == 65279

/-! ## Numbers -/

/-- A JavaScript number. -/
inductive JSNumber where
  | nan
  | negInf
  | fin (q : ℚ)
  | posInf
  deriving DecidableEq

/-- The power `2 ^ e` of an integer exponent, computed on natural numbers. -/
def pow2 (e : ℤ) : ℚ :=
  if 0 ≤ e then ((2 ^ e.toNat : ℕ) : ℚ) else ((2 ^ (-e).toNat : ℕ) : ℚ)⁻¹

/-- The number of halvings that take `n` below 2, at most `fuel` of them. -/
def log2Fuel : ℕ → ℕ → ℕ
  | 0, _ => 0
  | fuel + 1, n => if n < 2 then 0 else log2Fuel fuel (n / 2) + 1

/-- The value of `⌊log₂ n⌋` for `n > 0`. -/
def natLog2 (n : ℕ) : ℕ := log2Fuel n n

/-- The value of `⌊log₂ q⌋` for `q > 0`. -/
def floorLog2 (q : ℚ) : ℤ :=
  let e : ℤ := (natLog2 q.num.natAbs : ℤ) - (natLog2 q.den : ℤ)
  if pow2 e ≤ q then e else e - 1

/-- The integer nearest to `x`, the even one of the two when `x` lies half way. -/
def roundHalfEven (x : ℚ) : ℤ :=
  let f := ⌊x⌋
  if x - f < 1 / 2 then f
  else if 1 / 2 < x - f then f + 1
  else if f % 2 = 0 then f else f + 1

/-- The spacing of binary64 values around `q ≠ 0`: `2 ^ (e - 52)` where `e` is
the binary exponent of `q`, not below that of the subnormal numbers. -/
def ulp (q : ℚ) : ℚ :=
  pow2 (max (floorLog2 |q|) (-1022) - 52)

/-- The Number value for the real `q`: the binary64 value nearest to it under
roundTiesToEven, an infinity from `2 ^ 1024` on. -/
def roundDouble (q : ℚ) : JSNumber :=
  if q = 0 then .fin 0
  else
    let r : ℚ := roundHalfEven (|q| / ulp q) * ulp q
    if pow2 1024 ≤ r then (if q < 0 then .negInf else .posInf)
    else .fin (if q < 0 then -r else r)

/-- The operator `+` on numbers. -/
def JSNumber.add : JSNumber → JSNumber → JSNumber
  | .nan, _ => .nan
  | _, .nan => .nan
  | .posInf, .negInf => .nan
  | .negInf, .posInf => .nan
  | .posInf, _ => .posInf
  | _, .posInf => .posInf
  | .negInf, _ => .negInf
  | _, .negInf => .negInf
  | .fin a, .fin b => roundDouble (a + b)

/-- The operator `/` on numbers (a zero divisor is `+0`). -/
def JSNumber.div : JSNumber → JSNumber → JSNumber
  | .nan, _ => .nan
  | _, .nan => .nan
  | .posInf, .fin b => if b < 0 then .negInf else .posInf
  | .negInf, .fin b => if b < 0 then .posInf else .negInf
  | .fin _, .posInf => .fin 0
  | .fin _, .negInf => .fin 0
  | .fin a, .fin b =>
    if b = 0 then (if a = 0 then .nan else if a < 0 then .negInf else .posInf)
    else roundDouble (a / b)
  | _, _ => .nan

/-- The operator `<` on numbers: false when either side is `NaN`. -/
def JSNumber.lt : JSNumber → JSNumber → Bool
  | .nan, _ => false
  | _, .nan => false
  | .negInf, .negInf => false
  | .negInf, _ => true
  | _, .negInf => false
  | .posInf, _ => false
  | .fin _, .posInf => true
  | .fin a, .fin b => decide (a < b)

/-- What the host supplies. -/
structure Platform where
  /-- `String.prototype.toLowerCase`. -/
  toLowerCase : JSString → JSString
  /-- The time value of `new Date(s)` (`NaN` for an invalid date). -/
  dateParse : JSString → JSNumber
  /-- `Number::toString` of a finite number. -/
  numberToString : ℚ → JSString

/-! ## Numbers and text -/

/-- A decimal digit `0`..`9`. -/
def isDigit (c : Nat) : Bool := decide (48 ≤ c) && decide (c ≤ 57)

/-- The number written by a run of decimal digits. -/
def digitsValue (ds : JSString) : ℕ :=
  ds.foldl (fun acc d => 10 * acc + (d - 48)) 0

/-- The real `m × 10 ^ e`. -/
def scale10 (m : ℕ) (e : ℤ) : ℚ :=
  if 0 ≤ e then ((m * 10 ^ e.toNat : ℕ) : ℚ) else (m : ℚ) / ((10 ^ (-e).toNat : ℕ) : ℚ)

/-- An ExponentPart (`e` or `E`, an optional sign, digits) at the head of `s`:
its value and what follows it; `(0, s)` when `s` does not start with one. -/
def scanExponent (s : JSString) : ℤ × JSString :=
  match s with
  | [] => (0, s)
  | c :: r =>
    if c = 101 ∨ c = 69 then
      let signed : Bool × JSString :=
        match r with
        | [] => (false, r)
        | d :: r1 => if d = 43 then (false, r1) else if d = 45 then (true, r1) else (false, r)
      let ds := signed.2.takeWhile isDigit
      if ds = [] then (0, s)
      else ((if signed.1 then -(digitsValue ds : ℤ) else (digitsValue ds : ℤ)),
        signed.2.dropWhile isDigit)
    else (0, s)

/-- The longest StrUnsignedDecimalLiteral at the head of `s`: its mathematical
value (`none` for `Infinity`) and what follows it; `none` when `s` starts with
no such literal. -/
def scanUnsigned (s : JSString) : Option (Option ℚ × JSString) :=
  if (js "Infinity").isPrefixOf s then some (none, s.drop 8)
  else
    let ip := s.takeWhile isDigit
    match s.dropWhile isDigit with
    | [] => if ip = [] then none else some (some (digitsValue ip : ℚ), [])
    | c :: r2 =>
      if c = 46 then
        let fp := r2.takeWhile isDigit
        if ip = [] ∧ fp = [] then none
        else
          let ex := scanExponent (r2.dropWhile isDigit)
          some (some (scale10 (digitsValue (ip ++ fp)) (ex.1 - fp.length)), ex.2)
      else if ip = [] then none
      else
        let ex := scanExponent (c :: r2)
        some (some (scale10 (digitsValue ip) ex.1), ex.2)

/-- The longest StrDecimalLiteral (an optional sign and a
StrUnsignedDecimalLiteral) at the head of `s`: its Number value and what
follows it. -/
def scanDecimal (s : JSString) : Option (JSNumber × JSString) :=
  let signed : Bool × JSString :=
    match s with
    | [] => (false, s)
    | c :: r => if c = 43 then (false, r) else if c = 45 then (true, r) else (false, s)
  match scanUnsigned signed.2 with
  | none => none
  | some (none, rest) => some (if signed.1 then .negInf else .posInf, rest)
  | some (some q, rest) => some (roundDouble (if signed.1 then -q else q), rest)

/-- The global function `parseFloat` on a string. -/
def parseFloat (s : JSString) : JSNumber :=
  match scanDecimal (s.dropWhile isWhiteSpace) with
  | some (v, _) => v
  | none => .nan

/-- `s.trim()`. -/
def trim (s : JSString) : JSString :=
  ((s.dropWhile isWhiteSpace).reverse.dropWhile isWhiteSpace).reverse

/-- The value of a digit of a NonDecimalIntegerLiteral in the given radix. -/
def radixDigit (radix c : Nat) : Option ℕ :=
  let v : Option ℕ :=
    if 48 ≤ c ∧ c ≤ 57 then some (c - 48)
    else if 97 ≤ c ∧ c ≤ 102 then some (c - 87)
    else if 65 ≤ c ∧ c ≤ 70 then some (c - 55)
    else none
  v.bind fun d => if d < radix then some d else none

/-- The value of the digits of a NonDecimalIntegerLiteral, `none` when there is
no digit or one of them is not a digit of the radix. -/
def radixValue (radix : Nat) (ds : JSString) : Option ℕ :=
  if ds = [] then none
  else ds.foldl (fun acc c => acc.bind fun a => (radixDigit radix c).map fun d => radix * a + d)
    (some 0)

/-- StringToNumber, the conversion `Number(s)` that `isNaN(s)` applies to a
string: the whole trimmed string has to be a StrNumericLiteral. -/
def stringToNumber (s : JSString) : JSNumber :=
  let t := trim s
  let decimal : JSNumber :=
    match scanDecimal t with
    | some (v, []) => v
    | _ => .nan
  let radix (r : Nat) (ds : JSString) : JSNumber :=
    match radixValue r ds with
    | some n => roundDouble n
    | none => .nan
  match t with
  | [] => .fin 0
  | [_] => decimal
  | c :: x :: ds =>
    if c = 48 ∧ (x = 120 ∨ x = 88) then radix 16 ds
    else if c = 48 ∧ (x = 111 ∨ x = 79) then radix 8 ds
    else if c = 48 ∧ (x = 98 ∨ x = 66) then radix 2 ds
    else decimal

/-- The global function `isNaN` on a string. -/
def isNaN (s : JSString) : Bool :=
  decide (stringToNumber s = .nan)

/-- The decimal digits of `n`, most significant first, at most `fuel` of them
after the first. -/
def digitsFuel : ℕ → ℕ → JSString → JSString
  | 0, n, acc => (48 + n % 10) :: acc
  | fuel + 1, n, acc =>
    if n < 10 then (48 + n) :: acc else digitsFuel fuel (n / 10) ((48 + n % 10) :: acc)

/-- The decimal representation of the natural number `n`. -/
def decimalDigits (n : ℕ) : JSString := digitsFuel n n []

/-- The text `toFixed(2)` builds from the integer `n` of hundredths: the
digits of `n`, padded with zeros to three, a point before the last two. -/
def fixed2 (n : ℕ) : JSString :=
  let m := decimalDigits n
  let m := if m.length ≤ 2 then List.replicate (3 - m.length) 48 ++ m else m
  m.take (m.length - 2) ++ [46] ++ m.drop (m.length - 2)

/-- `x.toFixed(2)`: for a finite `x` below `10 ^ 21` in size, the integer `n`
for which `n / 100 - x` is closest to zero, the larger one of two, written by
`fixed2`. -/
def toFixed2 (P : Platform) : JSNumber → JSString
  | .nan => js "NaN"
  | .posInf => js "Infinity"
  | .negInf => js "-Infinity"
  | .fin q =>
    (if q < 0 then [45] else []) ++
      (if (1000000000000000000000 : ℚ) ≤ |q| then P.numberToString |q|
       else fixed2 ⌊|q| * 100 + 1 / 2⌋.toNat)

/-! ## `class Student` -/

/-- The value `calculateAverage` returns: the number `0` for an empty grades
array, otherwise the string `toFixed(2)` produces. -/
inductive Average where
  | zero
  | text (s : JSString)
  deriving DecidableEq

/-- An instance of `class Student`. -/
structure Student where
  id : ℚ
  lastName : JSString
  firstName : JSString
  middleName : JSString
  phone : JSString
  email : JSString
  birthDate : JSString
  group : JSString
  address : JSString
  educationType : JSString
  grades : List ℚ
  averageGrade : Average
  deriving DecidableEq

/-- `calculateAverage()` on the grades array. -/
def calculateAverage (P : Platform) (grades : List ℚ) : Average :=
  if grades.length = 0 then .zero
  else
    let sum := grades.foldl (fun acc grade => JSNumber.add acc (.fin grade)) (.fin 0)
    .text (toFixed2 P (JSNumber.div sum (.fin grades.length)))

/-- The constructor of `Student`; `id` is the value `Date.now() + Math.random()`
it draws. -/
def Student.construct (P : Platform) (id : ℚ)
    (lastName firstName middleName phone email birthDate group address educationType : JSString)
    (grades : List ℚ) : Student where
  id := id
  lastName := lastName
  firstName := firstName
  middleName := middleName
  phone := phone
  email := email
  birthDate := birthDate
  group := group
  address := address
  educationType := educationType
  grades := grades
  averageGrade := calculateAverage P grades

/-! ## `class StudentGroup` -/

/-- An instance of `class StudentGroup`: the array `this.students`. -/
structure StudentGroup where
  students : List Student

/-- The filter predicate of `searchStudents`, `term` already lower-cased. -/
def matchesTerm (P : Platform) (term : JSString) (student : Student) : Bool :=
  includes (P.toLowerCase student.lastName) term ||
  includes (P.toLowerCase student.firstName) term ||
  includes (P.toLowerCase student.middleName) term ||
  includes (P.toLowerCase student.phone) term ||
  includes (P.toLowerCase student.email) term ||
  includes (P.toLowerCase student.birthDate) term ||
  includes (P.toLowerCase student.group) term ||
  includes (P.toLowerCase student.address) term ||
  includes (P.toLowerCase student.educationType) term

/-- `searchStudents(searchTerm)`; `none` is an absent (`null`, `undefined`)
term, which like the empty string is falsy. -/
def StudentGroup.searchStudents (P : Platform) (g : StudentGroup)
    (searchTerm : Option JSString) : List Student :=
  match searchTerm with
  | none => g.students
  | some t =>
    if t = [] then g.students
    else g.students.filter (matchesTerm P (P.toLowerCase t))

/-- `isEmailUnique(email, excludeId)`; `excludeId = none` is the default `null`,
from which every id differs. -/
def StudentGroup.isEmailUnique (P : Platform) (g : StudentGroup) (email : JSString)
    (excludeId : Option ℚ) : Bool :=
  !g.students.any fun student =>
    decide (P.toLowerCase student.email = P.toLowerCase email) &&
      decide (some student.id ≠ excludeId)

/-- The character class `[\s\-\(\)]`. -/
def isPhoneSeparator (c : Nat) : Bool :=
  isWhiteSpace c || c == 45 || c == 40 || c == 41

/-- `phone.replace(/[\s\-\(\)]/g, "")`. -/
def normalizePhone (phone : JSString) : JSString :=
  phone.filter fun c => !isPhoneSeparator c

/-- `isPhoneUnique(phone, excludeId)`. -/
def StudentGroup.isPhoneUnique (g : StudentGroup) (phone : JSString)
    (excludeId : Option ℚ) : Bool :=
  let normalizedPhone := normalizePhone phone
  !g.students.any fun student =>
    let studentPhone := normalizePhone student.phone
    decide (studentPhone = normalizedPhone) && decide (some student.id ≠ excludeId)

/-! ## Persistence -/

/-- One element of `JSON.parse(localStorage.getItem("studentGroup"))`: the plain
object with the own properties `JSON.stringify` wrote for a `Student`. A finite
number and a string come back from `JSON.parse(JSON.stringify(v))` as they
went in. `address` and `educationType` may be missing from an object. -/
structure StoredStudent where
  id : ℚ
  lastName : JSString
  firstName : JSString
  middleName : JSString
  phone : JSString
  email : JSString
  birthDate : JSString
  group : JSString
  address : Option JSString
  educationType : Option JSString
  grades : List ℚ
  averageGrade : Average
  deriving DecidableEq

/-- The slot `"studentGroup"` of `localStorage`: `none` when `getItem` returns
`null`, otherwise the array the stored text parses to. -/
abbrev LocalStorage := Option (List StoredStudent)

/-- The plain object `JSON.stringify` writes for a student. -/
def Student.toStored (s : Student) : StoredStudent where
  id := s.id
  lastName := s.lastName
  firstName := s.firstName
  middleName := s.middleName
  phone := s.phone
  email := s.email
  birthDate := s.birthDate
  group := s.group
  address := some s.address
  educationType := some s.educationType
  grades := s.grades
  averageGrade := s.averageGrade

/-- `saveToStorage()`: the new content of the slot. -/
def StudentGroup.saveToStorage (g : StudentGroup) : LocalStorage :=
  some (g.students.map Student.toStored)

/-- `addStudent(student)`: the group after the push and the slot after the save. -/
def StudentGroup.addStudent (g : StudentGroup) (student : Student) :
    StudentGroup × LocalStorage :=
  let g1 : StudentGroup := { students := g.students ++ [student] }
  (g1, g1.saveToStorage)

/-- `loadFromStorage()`: the group after reading the slot. An absent slot
leaves `this.students` as it is. Every stored object is rebuilt by the
constructor, so its `averageGrade` is computed again from its grades; `||`
replaces a missing or empty `address` by `""` and a missing or empty
`educationType` by `"Бюджет"`; the id the constructor draws is overwritten by
the stored one. -/
def StudentGroup.loadFromStorage (P : Platform) (g : StudentGroup) (data : LocalStorage) :
    StudentGroup :=
  match data with
  | none => g
  | some studentsData =>
    { students := studentsData.map fun s =>
        let student := Student.construct P s.id s.lastName s.firstName s.middleName s.phone
          s.email s.birthDate s.group
          (match s.address with
            | some a => if a = [] then [] else a
            | none => [])
          (match s.educationType with
            | some e => if e = [] then js "Бюджет" else e
            | none => js "Бюджет")
          s.grades
        { student with id := s.id } }

/-! ## Sorting -/

/-- The test that lets a run go on in `CountAndMakeRun`: in a descending run
the current element compares below the previous one (`order < 0`), in an
ascending run it does not. -/
def runContinues {α : Type} (comparefn : α → α → ℤ) (isDescending : Bool)
    (currentElement previousElement : α) : Bool :=
  if isDescending then decide (comparefn currentElement previousElement < 0)
  else decide (0 ≤ comparefn currentElement previousElement)

/-- The loop of `CountAndMakeRun`: the elements that continue the run after
`previousElement`, and the elements left over from the first one that breaks
it. -/
def takeRun {α : Type} (comparefn : α → α → ℤ) (isDescending : Bool) :
    α → List α → List α × List α
  | _, [] => ([], [])
  | previousElement, currentElement :: rest =>
    if runContinues comparefn isDescending currentElement previousElement then
      (currentElement :: (takeRun comparefn isDescending currentElement rest).1,
        (takeRun comparefn isDescending currentElement rest).2)
    else ([], currentElement :: rest)

/-- One round of `BinaryInsertionSort`: `pivot` is placed into the sorted part
`work` by bisection. `work` is the interval `[left, right)` still searched, its
middle element is `workArray[left + ((right - left) >> 1)]`; `order < 0` goes
on in the left half (`right = mid`), any other order in the part after the
middle (`left = mid + 1`). The first argument bounds the number of halvings;
the length of `work` is enough. -/
def binaryInsert {α : Type} (comparefn : α → α → ℤ) (pivot : α) : ℕ → List α → List α
  | 0, work => pivot :: work
  | fuel + 1, work =>
    match work.drop (work.length / 2) with
    | [] => pivot :: work
    | middle :: after =>
      if comparefn pivot middle < 0 then
        binaryInsert comparefn pivot fuel (work.take (work.length / 2)) ++ middle :: after
      else work.take (work.length / 2) ++ middle :: binaryInsert comparefn pivot fuel after

/-- `Array.prototype.sort(comparefn)` on a copy of the array. ECMAScript fixes
the result when the comparison function is consistent (a stable sort) and
leaves the order implementation-defined when it is not, as for a comparison
function that answers `0` whenever one side is `NaN`. The definition follows
V8 (`third_party/v8/builtins/array-sort.tq`), the engine of Chromium and Node:
`CountAndMakeRun` takes the longest run at the start, descending when
`comparefn(a[1], a[0]) < 0` and then reversed, and `BinaryInsertionSort`
inserts the remaining elements one by one. That is the whole of V8's sort for
fewer than 64 elements; a longer array is cut into several such runs which
are merged, with the same result whenever the comparison function is
consistent. -/
def arraySort {α : Type} (comparefn : α → α → ℤ) : List α → List α
  | [] => []
  | [a] => [a]
  | a :: b :: rest =>
    let isDescending := decide (comparefn b a < 0)
    let run := takeRun comparefn isDescending b rest
    let made := if isDescending then (a :: b :: run.1).reverse else a :: b :: run.1
    run.2.foldl (fun work pivot => binaryInsert comparefn pivot work.length work) made

/-- The first argument of `sortStudents`: an array of field names or one name. -/
inductive SortFields where
  | list (fields : List JSString)
  | single (field : JSString)

/-- `array.toString()` of an array of strings: the elements joined by commas. -/
def joinComma : List JSString → JSString
  | [] => []
  | [x] => x
  | x :: y :: rest => x ++ [44] ++ joinComma (y :: rest)

/-- `String(a[field])`. A name that is no own property of a student yields
`"undefined"`; an inherited name, which yields one and the same text for every
student, is not told apart from it. -/
def Student.stringOf (P : Platform) (a : Student) (field : JSString) : JSString :=
  if field = js "id" then P.numberToString a.id
  else if field = js "lastName" then a.lastName
  else if field = js "firstName" then a.firstName
  else if field = js "middleName" then a.middleName
  else if field = js "phone" then a.phone
  else if field = js "email" then a.email
  else if field = js "birthDate" then a.birthDate
  else if field = js "group" then a.group
  else if field = js "address" then a.address
  else if field = js "educationType" then a.educationType
  else if field = js "grades" then joinComma (a.grades.map P.numberToString)
  else if field = js "averageGrade" then
    (match a.averageGrade with
      | .zero => js "0"
      | .text t => t)
  else js "undefined"

/-- `parseFloat(a.averageGrade)`: the number `0` is first converted to `"0"`. -/
def Average.parseFloat : Average → JSNumber
  | .zero => .fin 0
  | .text t => Coursework.parseFloat t

/-- The converted value `valueA` the comparison function compares. -/
inductive SortKey where
  | num (x : JSNumber)
  | str (s : JSString)
  deriving DecidableEq

/-- The conversion of `a[field]` in the comparison function: `parseFloat` for
`averageGrade`, `new Date` (compared by its time value) for `birthDate`,
`String(...).toLowerCase()` for every other field. -/
def sortValue (P : Platform) (field : JSString) (a : Student) : SortKey :=
  if field = js "averageGrade" then .num a.averageGrade.parseFloat
  else if field = js "birthDate" then .num (P.dateParse a.birthDate)
  else .str (P.toLowerCase (a.stringOf P field))

/-- The operator `<` on two converted values: numeric on numbers, by code units
on strings. (The two sides always come from the same field.) -/
def SortKey.lt : SortKey → SortKey → Bool
  | .num x, .num y => x.lt y
  | .str s, .str t => decide (s < t)
  | _, _ => false

/-- One field of the comparison function: the value of the two `return`
statements, `0` when neither is reached. -/
def compareOn (P : Platform) (direction field : JSString) (a b : Student) : ℤ :=
  let valueA := sortValue P field a
  let valueB := sortValue P field b
  if valueA.lt valueB then (if direction = js "asc" then -1 else 1)
  else if valueB.lt valueA then (if direction = js "asc" then 1 else -1)
  else 0

/-- The loop `for (let field of fields)` of the comparison function. -/
def compareList (P : Platform) (direction : JSString) (a b : Student) : List JSString → ℤ
  | [] => 0
  | field :: rest =>
    if compareOn P direction field a b ≠ 0 then compareOn P direction field a b
    else compareList P direction a b rest

/-- The comparison function `sortStudents` passes to `sort`. -/
def compareStudents (P : Platform) (fields : SortFields) (direction : JSString)
    (a b : Student) : ℤ :=
  match fields with
  | .list fs => compareList P direction a b fs
  | .single field => compareOn P direction field a b

/-- `sortStudents(fields, direction)`. -/
def StudentGroup.sortStudents (P : Platform) (g : StudentGroup) (fields : SortFields)
    (direction : JSString) : List Student :=
  arraySort (compareStudents P fields direction) g.students

/-- The sorting step of `displayStudents`: `students` is what the search step
left, `selectedSortFields` and `currentSortDirection` the module variables
(`none` is `null`). -/
def displaySort (P : Platform) (g : StudentGroup) (selectedSortFields : List JSString)
    (currentSortDirection : Option JSString) (students : List Student) : List Student :=
  match selectedSortFields, currentSortDirection with
  | first :: rest, some direction =>
    if direction = [] then students
    else if js "lastName" ∈ first :: rest ∧ js "firstName" ∈ first :: rest then
      g.sortStudents P (.list [js "lastName", js "firstName"]) direction
    else if (first :: rest).length = 1 then g.sortStudents P (.single first) direction
    else g.sortStudents P (.single first) direction
  | _, _ => students

/-! ## Validation -/

/-- `s.split(/\s+/)`: the pieces of `s` between maximal runs of white space. -/
def splitWhiteSpace : JSString → List JSString
  | [] => [[]]
  | c :: rest =>
    if isWhiteSpace c then
      (match rest with
        | [] => [[], []]
        | d :: _ => if isWhiteSpace d then splitWhiteSpace rest else [] :: splitWhiteSpace rest)
    else
      (match splitWhiteSpace rest with
        | [] => [[c]]
        | t :: ts => (c :: t) :: ts)

/-- The result object of `validateGrades`. -/
inductive GradesValidation where
  | invalid (message : JSString)
  | valid (grades : List JSNumber)
  deriving DecidableEq

/-- The loop of `validateGrades`: the message of the first `return` reached. -/
def validateLoop : List JSString → Option JSString
  | [] => none
  | grade :: rest =>
    if isNaN grade ∨ grade = [] then some (js "Оцінки повинні бути числами")
    else
      let numGrade := parseFloat grade
      if numGrade.lt (.fin 0) ∨ (JSNumber.fin 100).lt numGrade then
        some (js "Оцінки повинні бути від 0 до 100")
      else validateLoop rest

/-- `validateGrades(gradesString)`. -/
def validateGrades (gradesString : JSString) : GradesValidation :=
  if trim gradesString = [] then .invalid (js "Введіть оцінки")
  else
    let grades := splitWhiteSpace (trim gradesString)
    match validateLoop grades with
    | some message => .invalid message
    | none => .valid (grades.map parseFloat)

/-! ## A platform for examples -/

/-- Lower-casing of the letters `A`..`Z`, every other code unit kept: what
`toLowerCase` does on a string of ASCII characters. -/
def asciiLower (s : JSString) : JSString :=
  s.map fun c => if 65 ≤ c ∧ c ≤ 90 then c + 32 else c

/-- A platform on which the examples with ASCII text are evaluated: it
lower-cases `A`..`Z`, takes no string for a date, and writes a number as the
digits of its whole part. -/
def asciiPlatform : Platform where
  toLowerCase := asciiLower
  dateParse := fun _ => .nan
  numberToString := fun q => decimalDigits ⌊|q|⌋.toNat

/-! ## Specification-side definitions -/

/-- The nine text fields `searchStudents` looks at. -/
def searchedFields (s : Student) : List JSString :=
  [s.lastName, s.firstName, s.middleName, s.phone, s.email, s.birthDate, s.group,
    s.address, s.educationType]

/-- The lower-cased `term` is a substring of the lower-cased value of one of
the nine text fields. -/
def TermOccurs (P : Platform) (term : JSString) (s : Student) : Prop :=
  ∃ v ∈ searchedFields s, P.toLowerCase term <:+: P.toLowerCase v

instance (P : Platform) (term : JSString) (s : Student) : Decidable (TermOccurs P term s) :=
  inferInstanceAs (Decidable (∃ v ∈ searchedFields s, P.toLowerCase term <:+: P.toLowerCase v))

/-- The platform lower-cases a string of ASCII characters by taking `A`..`Z`
to `a`..`z`, as `toLowerCase` does in every engine. -/
def AsciiLower (P : Platform) : Prop :=
  ∀ s : JSString, (∀ c ∈ s, c < 128) → P.toLowerCase s = asciiLower s

/-- The operator `<=` on numbers: false when either side is `NaN`. -/
def JSNumber.le (x y : JSNumber) : Bool :=
  x.lt y || (decide (x = y) && decide (x ≠ .nan))

/-- The text `Number::toString` gives for a finite number from `10 ^ 21` on
starts with a decimal digit (it is written in exponent form, as `1e+21`). -/
def DigitLed (P : Platform) : Prop :=
  ∀ q : ℚ, 1000000000000000000000 ≤ q →
    ∃ c rest, P.numberToString q = c :: rest ∧ isDigit c = true

/-- The field names an argument of `sortStudents` lists. -/
def SortFields.names : SortFields → List JSString
  | .list fields => fields
  | .single field => [field]

/-- Two students tie on a sort key: neither converted value is less than the
other. -/
def TiedOn (P : Platform) (field : JSString) (a b : Student) : Prop :=
  (sortValue P field a).lt (sortValue P field b) = false ∧
  (sortValue P field b).lt (sortValue P field a) = false

/-! ## Example data -/

/-- A record with an empty `educationType`. -/
def noEducationType : Student where
  id := 1
  lastName := js "Smith"
  firstName := js "Ann"
  middleName := js "Lee"
  phone := js "0501234567"
  email := js "a@b.com"
  birthDate := js "2000-01-01"
  group := js "G1"
  address := js "Kyiv"
  educationType := []
  grades := [90]
  averageGrade := .text (js "90.00")

/-- A record whose `averageGrade` is not the average of its grades, as
`Object.assign` leaves it when `updateStudent` is given an `averageGrade` and
no grades. -/
def staleAverage : Student where
  id := 2
  lastName := js "Smith"
  firstName := js "Bob"
  middleName := js "Lee"
  phone := js "0501234568"
  email := js "b@b.com"
  birthDate := js "2000-01-02"
  group := js "G1"
  address := js "Kyiv"
  educationType := js "Contract"
  grades := [90]
  averageGrade := .text (js "50.00")

/-- The Number `60.07`: the binary64 value nearest to 60.07. -/
def grade6007 : ℚ := 8454100925504553 / 140737488355328

/-- The token passes both tests of the loop of `validateGrades`: `isNaN` is
false for it, and its `parseFloat` is neither below 0 nor above 100. -/
def Accepted (t : JSString) : Prop :=
  ¬ (isNaN t = true ∨ t = []) ∧
  ¬ ((parseFloat t).lt (.fin 0) = true ∨ (JSNumber.fin 100).lt (parseFloat t) = true)

/-- The place of a number that is not `NaN` in the order of numbers. -/
def rank : JSNumber → ℤ ×ₗ ℚ
  | .nan => toLex (-1, 0)
  | .negInf => toLex (-1, 0)
  | .fin q => toLex (0, q)
  | .posInf => toLex (1, 0)

/-- A student of the group `A` with the given id and first name. -/
def groupA (i : ℚ) (first : String) : Student where
  id := i
  lastName := js "Smith"
  firstName := js first
  middleName := js "Lee"
  phone := js "0501234567"
  email := js "a@b.com"
  birthDate := js "2000-01-01"
  group := js "A"
  address := js "Kyiv"
  educationType := js "Budget"
  grades := [90]
  averageGrade := .text (js "90.00")

/-- Two students built by the constructor, with the grades 9.5 and 80. -/
def twoAverages : StudentGroup where
  students :=
    [Student.construct asciiPlatform 1 (js "Smith") (js "Ann") (js "Lee") (js "0501234567")
        (js "a@b.com") (js "2000-01-01") (js "A") (js "Kyiv") (js "Budget") [19 / 2],
      Student.construct asciiPlatform 2 (js "Smith") (js "Bob") (js "Lee") (js "0501234568")
        (js "b@b.com") (js "2000-01-02") (js "A") (js "Kyiv") (js "Budget") [80]]

/-! ## Removing and updating students -/

/-- `deleteStudent(id)`: the group after the filter and the slot after the save. -/
def StudentGroup.deleteStudent (g : StudentGroup) (id : ℚ) : StudentGroup × LocalStorage :=
  let g1 : StudentGroup := { students := g.students.filter fun student => decide (student.id ≠ id) }
  (g1, g1.saveToStorage)

/-- `array.findIndex(p)`: the index of the first element `p` holds of, `none`
for the result `-1`. -/
def findIndex {α : Type} (p : α → Bool) : List α → Option ℕ
  | [] => none
  | x :: xs => if p x then some 0 else (findIndex p xs).map (· + 1)

/-- The object `updatedData` given to `updateStudent`: for each property of a
student, the new value when the object has that property. (A property with
another name, or with a value of another type than the student's, is outside
the embedding.) -/
structure UpdatedData where
  id : Option ℚ := none
  lastName : Option JSString := none
  firstName : Option JSString := none
  middleName : Option JSString := none
  phone : Option JSString := none
  email : Option JSString := none
  birthDate : Option JSString := none
  group : Option JSString := none
  address : Option JSString := none
  educationType : Option JSString := none
  grades : Option (List ℚ) := none
  averageGrade : Option Average := none
  deriving DecidableEq

/-- `Object.assign(student, updatedData)`: every property of `updatedData`
overwrites the student's. -/
def Student.assign (student : Student) (updatedData : UpdatedData) : Student where
  id := updatedData.id.getD student.id
  lastName := updatedData.lastName.getD student.lastName
  firstName := updatedData.firstName.getD student.firstName
  middleName := updatedData.middleName.getD student.middleName
  phone := updatedData.phone.getD student.phone
  email := updatedData.email.getD student.email
  birthDate := updatedData.birthDate.getD student.birthDate
  group := updatedData.group.getD student.group
  address := updatedData.address.getD student.address
  educationType := updatedData.educationType.getD student.educationType
  grades := updatedData.grades.getD student.grades
  averageGrade := updatedData.averageGrade.getD student.averageGrade

/-- What `updateStudent` does to the student it found: `Object.assign`, then
`averageGrade` is computed again when `updatedData.grades` is truthy, which an
array, empty or not, is. -/
def Student.update (P : Platform) (student : Student) (updatedData : UpdatedData) : Student :=
  let assigned := student.assign updatedData
  if updatedData.grades.isSome then
    { assigned with averageGrade := calculateAverage P assigned.grades }
  else assigned

/-- `updateStudent(id, updatedData)`: the group and the slot afterwards. When
no student has the id (`findIndex` gives `-1`) nothing is done and nothing is
saved. The students of the roster are distinct objects, so the assignment
changes the one at `index` only. -/
def StudentGroup.updateStudent (P : Platform) (g : StudentGroup) (storage : LocalStorage)
    (id : ℚ) (updatedData : UpdatedData) : StudentGroup × LocalStorage :=
  match findIndex (fun student : Student => decide (student.id = id)) g.students with
  | none => (g, storage)
  | some index =>
    let g1 : StudentGroup :=
      { students := g.students.modify (fun student => student.update P updatedData) index }
    (g1, g1.saveToStorage)

/-- `new StudentGroup()`: the empty array, then `loadFromStorage()`. -/
def StudentGroup.create (P : Platform) (storage : LocalStorage) : StudentGroup :=
  StudentGroup.loadFromStorage P { students := [] } storage

/-- A call of one of the three methods that change the roster. -/
inductive Operation where
  | addStudent (student : Student)
  | deleteStudent (id : ℚ)
  | updateStudent (id : ℚ) (updatedData : UpdatedData)

/-- The group and the slot after one call. -/
def Operation.apply (P : Platform) (state : StudentGroup × LocalStorage) :
    Operation → StudentGroup × LocalStorage
  | .addStudent student => state.1.addStudent student
  | .deleteStudent id => state.1.deleteStudent id
  | .updateStudent id updatedData => state.1.updateStudent P state.2 id updatedData

/-- The group and the slot after a sequence of calls, made in order on a group
created over the given content of the slot. -/
def session (P : Platform) (storage : LocalStorage) (calls : List Operation) :
    StudentGroup × LocalStorage :=
  calls.foldl (Operation.apply P) (StudentGroup.create P storage, storage)

/-- The student is one the constructor builds. -/
def BuiltByConstructor (P : Platform) (student : Student) : Prop :=
  ∃ (id : ℚ)
    (lastName firstName middleName phone email birthDate group address educationType : JSString)
    (grades : List ℚ),
    student = Student.construct P id lastName firstName middleName phone email birthDate group
      address educationType grades

/-- The `averageGrade` of the student is what `calculateAverage` gives for its
grades. -/
def Consistent (P : Platform) (student : Student) : Prop :=
  student.averageGrade = calculateAverage P student.grades

/-- The calls the amended invariant is about: `addStudent` is given a student
built by the constructor, and an `updatedData` that has `averageGrade` has
`grades` too. -/
def Operation.Regular (P : Platform) : Operation → Prop
  | .addStudent student => BuiltByConstructor P student
  | .deleteStudent _ => True
  | .updateStudent _ updatedData =>
    updatedData.averageGrade.isSome = true → updatedData.grades.isSome = true

/-- A slot that holds one student, with the id 1 and the grades 90. -/
def storedOne : LocalStorage :=
  some [(groupA 1 "Bob").toStored]

/-! ## Sort keys, and a platform with dates -/

/-- The place of a converted sort value that is not `NaN` in the order the
comparison function compares by: numbers by `rank`, strings by code units. -/
def SortKey.place : SortKey → (ℤ ×ₗ ℚ) ×ₗ JSString
  | .num x => toLex (rank x, [])
  | .str s => toLex (toLex (0, 0), s)

/-- The day number of the first day of the year `y` (`DayFromYear` of
ECMAScript). -/
def dayFromYear (y : ℤ) : ℤ :=
  365 * (y - 1970) + (y - 1969) / 4 - (y - 1901) / 100 + (y - 1601) / 400

/-- A platform for examples with dates: as every engine it reads four digits
`YYYY` (the shortest date-only form of the ECMAScript date-time format) as the
start of that year in UTC, and gives `NaN`, an invalid date, for a text like
`"not a date"`; the dates of the examples are of these two kinds. -/
def yearPlatform : Platform where
  toLowerCase := asciiLower
  dateParse := fun s =>
    if s.length = 4 ∧ s.all isDigit = true then
      .fin ((dayFromYear (digitsValue s) * 86400000 : ℤ) : ℚ)
    else .nan
  numberToString := fun q => decimalDigits ⌊|q|⌋.toNat

/-- A student of the group `A` with the given id and date of birth. -/
def born (i : ℚ) (birthDate : String) : Student where
  id := i
  lastName := js "Smith"
  firstName := js "Ann"
  middleName := js "Lee"
  phone := js "0501234567"
  email := js "a@b.com"
  birthDate := js birthDate
  group := js "A"
  address := js "Kyiv"
  educationType := js "Budget"
  grades := [90]
  averageGrade := .text (js "90.00")

/-! ## Theorems -/

theorem includes_iff (s t : JSString) : includes s t = true ↔ t <:+: s := by
  induction s with
  | nil =>
    simp [includes, List.isPrefixOf_iff_prefix]
  | cons c s ih =>
    simp only [includes, Bool.or_eq_true, ih, List.isPrefixOf_iff_prefix]
    exact List.infix_cons_iff.symm

theorem js_includes_examples :
    js "Budget" = [66, 117, 100, 103, 101, 116] ∧
    includes (js "budget") (js "dge") = true ∧
    includes (js "budget") (js "dga") = false := by
  decide

theorem matchesTerm_iff (P : Platform) (t : JSString) (s : Student) :
    matchesTerm P (P.toLowerCase t) s = true ↔ TermOccurs P t s := by
  simp [matchesTerm, TermOccurs, searchedFields, includes_iff, or_assoc]

theorem searchStudents_filter (P : Platform) (g : StudentGroup) (t : JSString) (ht : t ≠ []) :
    g.searchStudents P (some t) = g.students.filter (fun s => decide (TermOccurs P t s)) := by
  simp only [StudentGroup.searchStudents, if_neg ht]
  apply List.filter_congr
  intro s _
  rw [Bool.eq_iff_iff, matchesTerm_iff]
  simp

/-- **C2.** `searchStudents` returns the whole roster for an absent or empty
term; for any other term it returns, in roster order, exactly the records in
which the lower-cased term is a substring of the lower-cased value of one of
the nine text fields. The result does not depend on `grades` and
`averageGrade`: changing those in every record changes the result by the same
change and nothing else, so a term that occurs only there matches nothing. On
a platform that lower-cases ASCII text as every engine does, the term
`"budget"` matches a record whose `educationType` is `"Budget"`. -/
theorem searchStudents_spec (P : Platform) (g : StudentGroup) :
    g.searchStudents P none = g.students ∧
    g.searchStudents P (some []) = g.students ∧
    (∀ t : JSString, t ≠ [] →
      g.searchStudents P (some t) = g.students.filter (fun s => decide (TermOccurs P t s)) ∧
      (g.searchStudents P (some t)).Sublist g.students ∧
      (∀ s, s ∈ g.searchStudents P (some t) ↔ s ∈ g.students ∧ TermOccurs P t s) ∧
      ∀ f : Student → List ℚ × Average,
        StudentGroup.searchStudents P
            ⟨g.students.map fun s => { s with grades := (f s).1, averageGrade := (f s).2 }⟩
            (some t) =
          (g.searchStudents P (some t)).map
            fun s => { s with grades := (f s).1, averageGrade := (f s).2 }) ∧
    (AsciiLower P → ∀ s ∈ g.students, s.educationType = js "Budget" →
      s ∈ g.searchStudents P (some (js "budget"))) := by
  refine ⟨rfl, rfl, fun t ht => ?_, ?_⟩
  · have hfilter := searchStudents_filter P g t ht
    refine ⟨hfilter, ?_, ?_, ?_⟩
    · rw [hfilter]
      exact List.filter_sublist _
    · intro s
      rw [hfilter]
      simp [List.mem_filter]
    · intro f
      simp only [StudentGroup.searchStudents, if_neg ht, List.filter_map]
      congr 1
  · intro hP s hs he
    rw [searchStudents_filter P g _ (by decide)]
    simp only [List.mem_filter, decide_eq_true_eq]
    refine ⟨hs, s.educationType, by simp [searchedFields], ?_⟩
    rw [he, hP _ (by decide), hP _ (by decide)]
    decide

/-- **C4.** `isEmailUnique(email, excludeId)` is true exactly when no record
whose id differs from `excludeId` has the same email after lower-casing both;
and once a record with email `"a@b.com"` is added, `isEmailUnique("A@B.com")`
is false, while with that record's id excluded it is true when no record with
another id has that email. (The example is read on a platform whose
`toLowerCase` takes `"A@B.com"` and `"a@b.com"` to the same string, as every
engine's does.) -/
theorem isEmailUnique_spec (P : Platform) (g : StudentGroup) :
    (∀ (email : JSString) (excludeId : Option ℚ),
      g.isEmailUnique P email excludeId = true ↔
        ∀ s ∈ g.students, some s.id ≠ excludeId →
          P.toLowerCase s.email ≠ P.toLowerCase email) ∧
    (P.toLowerCase (js "A@B.com") = P.toLowerCase (js "a@b.com") →
      ∀ s : Student, s.email = js "a@b.com" →
        (g.addStudent s).1.isEmailUnique P (js "A@B.com") none = false ∧
        ((∀ t ∈ g.students, t.id ≠ s.id →
            P.toLowerCase t.email ≠ P.toLowerCase (js "a@b.com")) →
          (g.addStudent s).1.isEmailUnique P (js "A@B.com") (some s.id) = true)) := by
  constructor
  · intro email excludeId
    simp only [StudentGroup.isEmailUnique, Bool.not_eq_true', List.any_eq_false,
      Bool.and_eq_true, decide_eq_true_eq, not_and, ne_eq]
    constructor
    · intro h s hs hne heq
      exact h s hs heq hne
    · intro h s hs heq hne
      exact h s hs hne heq
  · intro hP s hs
    constructor
    · simp [StudentGroup.isEmailUnique, StudentGroup.addStudent, hs, hP]
    · intro h
      simp only [StudentGroup.isEmailUnique, StudentGroup.addStudent, Bool.not_eq_true',
        List.any_eq_false, Bool.and_eq_true, decide_eq_true_eq, not_and, ne_eq,
        List.mem_append, List.mem_singleton, Option.some.injEq, not_not]
      intro t ht heq
      rcases ht with ht | rfl
      · by_contra hne
        exact h t ht hne (by rw [heq, hP])
      · rfl

/-- **C5.** `isPhoneUnique(phone, excludeId)` is true exactly when no record
whose id differs from `excludeId` has a phone equal to `phone` once the
characters of the class `[\s\-\(\)]` (white space, dashes, parentheses) are
removed from both; with a record whose phone is `"+380 (50) 123-4567"` in the
roster, `isPhoneUnique("+380501234567")` is false. -/
theorem isPhoneUnique_spec (g : StudentGroup) :
    (∀ (phone : JSString) (excludeId : Option ℚ),
      g.isPhoneUnique phone excludeId = true ↔
        ∀ s ∈ g.students, some s.id ≠ excludeId →
          normalizePhone s.phone ≠ normalizePhone phone) ∧
    (∀ s ∈ g.students, s.phone = js "+380 (50) 123-4567" →
      g.isPhoneUnique (js "+380501234567") none = false) ∧
    (∀ phone : JSString, normalizePhone phone =
        phone.filter fun c => !(isWhiteSpace c || c == 45 || c == 40 || c == 41)) ∧
    normalizePhone (js "+380 (50) 123-4567") = js "+380501234567" := by
  refine ⟨?_, ?_, fun _ => rfl, by decide⟩
  · intro phone excludeId
    simp only [StudentGroup.isPhoneUnique, Bool.not_eq_true', List.any_eq_false,
      Bool.and_eq_true, decide_eq_true_eq, not_and, ne_eq]
    constructor
    · intro h s hs hne heq
      exact h s hs heq hne
    · intro h s hs heq hne
      exact h s hs hne heq
  · intro s hs hphone
    simp only [StudentGroup.isPhoneUnique, Bool.not_eq_false', List.any_eq_true,
      Bool.and_eq_true, decide_eq_true_eq]
    refine ⟨s, hs, ?_, by simp⟩
    rw [hphone]
    decide

/-- What `loadFromStorage` makes of one saved student. -/
theorem load_save_students (P : Platform) (g g0 : StudentGroup) :
    (StudentGroup.loadFromStorage P g0 g.saveToStorage).students =
      g.students.map fun a =>
        { a with
          educationType := if a.educationType = [] then js "Бюджет" else a.educationType
          averageGrade := calculateAverage P a.grades } := by
  simp only [StudentGroup.loadFromStorage, StudentGroup.saveToStorage, List.map_map]
  apply List.map_congr_left
  intro a _
  simp only [Function.comp, Student.toStored, Student.construct]
  by_cases h : a.address = [] <;> simp [h]

/-- **C1 (amended).** Writing a roster with `saveToStorage` and reading it back
with `loadFromStorage` yields a list of the same length in the same order, in
which the k-th record has the id, `lastName`, `firstName`, `middleName`,
`phone`, `email`, `birthDate`, `group`, `address` and `grades` of the k-th
original; its `educationType` is the original's when that is not empty; its
`averageGrade` is `calculateAverage` of the grades, so it is the original's
`averageGrade` when that had been computed from the grades; and a record with
a non-empty `educationType` and such an `averageGrade` comes back equal to the
original. -/
theorem roundtrip_amended (P : Platform) (g g0 : StudentGroup) :
    List.Forall₂
      (fun a b : Student =>
        b.id = a.id ∧ b.lastName = a.lastName ∧ b.firstName = a.firstName ∧
        b.middleName = a.middleName ∧ b.phone = a.phone ∧ b.email = a.email ∧
        b.birthDate = a.birthDate ∧ b.group = a.group ∧ b.address = a.address ∧
        b.grades = a.grades ∧
        (a.educationType ≠ [] → b.educationType = a.educationType) ∧
        b.averageGrade = calculateAverage P a.grades ∧
        (a.averageGrade = calculateAverage P a.grades → b.averageGrade = a.averageGrade) ∧
        (a.educationType ≠ [] → a.averageGrade = calculateAverage P a.grades → b = a))
      g.students (StudentGroup.loadFromStorage P g0 g.saveToStorage).students := by
  rw [load_save_students, List.forall₂_map_right_iff]
  apply List.forall₂_same.mpr
  intro a _
  refine ⟨rfl, rfl, rfl, rfl, rfl, rfl, rfl, rfl, rfl, rfl, ?_, rfl, ?_, ?_⟩
  · intro h
    simp [h]
  · intro h
    exact h.symm
  · intro h1 h2
    cases a
    simp_all

/-- **C1 as stated fails.** A record with an empty `educationType` comes back
with `"Бюджет"`, and a record whose `averageGrade` was not computed from its
grades comes back with the computed one. -/
theorem roundtrip_counterexample :
    (StudentGroup.loadFromStorage asciiPlatform ⟨[]⟩
        (StudentGroup.saveToStorage ⟨[noEducationType]⟩)).students.map (·.educationType) ≠
      [noEducationType.educationType] ∧
    (StudentGroup.loadFromStorage asciiPlatform ⟨[]⟩
        (StudentGroup.saveToStorage ⟨[staleAverage]⟩)).students.map (·.averageGrade) ≠
      [staleAverage.averageGrade] := by
  decide!

/-! ### `Array.prototype.sort` -/

theorem takeRun_append {α : Type} (cmp : α → α → ℤ) (d : Bool) (prev : α) (l : List α) :
    (takeRun cmp d prev l).1 ++ (takeRun cmp d prev l).2 = l := by
  induction l generalizing prev with
  | nil => rfl
  | cons cur rest ih =>
    unfold takeRun
    split_ifs
    · simp [ih]
    · rfl

theorem binaryInsert_perm {α : Type} (cmp : α → α → ℤ) (pivot : α) (fuel : ℕ) (work : List α) :
    (binaryInsert cmp pivot fuel work).Perm (pivot :: work) := by
  induction fuel generalizing work with
  | zero => exact List.Perm.refl _
  | succ fuel ih =>
    unfold binaryInsert
    have hw : work.take (work.length / 2) ++ work.drop (work.length / 2) = work :=
      List.take_append_drop _ _
    split
    · exact List.Perm.refl _
    · rename_i middle after hd
      rw [hd] at hw
      split_ifs
      · have h1 : (binaryInsert cmp pivot fuel (work.take (work.length / 2)) ++
            middle :: after).Perm ((pivot :: work.take (work.length / 2)) ++ middle :: after) :=
          List.Perm.append_right _ (ih _)
        rw [List.cons_append, hw] at h1
        exact h1
      · have h1 : (work.take (work.length / 2) ++ middle :: binaryInsert cmp pivot fuel after).Perm
            (work.take (work.length / 2) ++ middle :: pivot :: after) :=
          List.Perm.append_left _ (List.Perm.cons _ (ih _))
        have h2 : (work.take (work.length / 2) ++ middle :: pivot :: after).Perm
            (pivot :: (work.take (work.length / 2) ++ middle :: after)) := by
          have h3 := @List.perm_middle _ pivot (work.take (work.length / 2) ++ [middle]) after
          simpa using h3
        rw [hw] at h2
        exact h1.trans h2

theorem foldl_binaryInsert_perm {α : Type} (cmp : α → α → ℤ) (tail made : List α) :
    (tail.foldl (fun work pivot => binaryInsert cmp pivot work.length work) made).Perm
      (made ++ tail) := by
  induction tail generalizing made with
  | nil => simp
  | cons p tail ih =>
    simp only [List.foldl_cons]
    refine (ih _).trans ?_
    have h1 := binaryInsert_perm cmp p made.length made
    have h2 : (binaryInsert cmp p made.length made ++ tail).Perm ((p :: made) ++ tail) :=
      List.Perm.append_right _ h1
    refine h2.trans ?_
    simpa using (@List.perm_middle _ p made tail).symm

theorem arraySort_perm {α : Type} (cmp : α → α → ℤ) (l : List α) : (arraySort cmp l).Perm l := by
  match l with
  | [] => exact List.Perm.refl _
  | [a] => exact List.Perm.refl _
  | a :: b :: rest =>
    unfold arraySort
    simp only
    refine (foldl_binaryInsert_perm cmp _ _).trans ?_
    have hr := takeRun_append cmp (decide (cmp b a < 0)) b rest
    have h1 : ((if decide (cmp b a < 0) = true then
        (a :: b :: (takeRun cmp (decide (cmp b a < 0)) b rest).1).reverse
        else a :: b :: (takeRun cmp (decide (cmp b a < 0)) b rest).1)).Perm
        (a :: b :: (takeRun cmp (decide (cmp b a < 0)) b rest).1) := by
      split_ifs
      · exact List.reverse_perm _
      · exact List.Perm.refl _
    refine (List.Perm.append_right _ h1).trans ?_
    simp only [List.cons_append, hr]
    exact List.Perm.refl _

theorem binaryInsert_eq {α K : Type} [LinearOrder K] (cmp : α → α → ℤ) (key : α → K) (pivot : α)
    (fuel : ℕ) (work : List α) (hfuel : work.length ≤ fuel)
    (hc : ∀ x ∈ work, (cmp pivot x < 0 ↔ key pivot < key x))
    (hs : work.Pairwise fun x y => key x ≤ key y) :
    binaryInsert cmp pivot fuel work =
      work.filter (fun x => decide (key x ≤ key pivot)) ++
        pivot :: work.filter (fun x => decide (key pivot < key x)) := by
  induction fuel generalizing work with
  | zero =>
    have : work = [] := List.length_eq_zero.mp (Nat.le_zero.mp hfuel)
    subst this
    rfl
  | succ fuel ih =>
    unfold binaryInsert
    have hw : work.take (work.length / 2) ++ work.drop (work.length / 2) = work :=
      List.take_append_drop _ _
    split
    · rename_i hd
      have hl : work.length ≤ work.length / 2 := List.drop_eq_nil_iff.mp hd
      have : work = [] := List.length_eq_zero.mp (by omega)
      subst this
      rfl
    · rename_i middle after hd
      rw [hd] at hw
      have hlenT : (work.take (work.length / 2)).length ≤ fuel := by
        rw [List.length_take]; omega
      have hlenA : after.length ≤ fuel := by
        have h := congrArg List.length hd
        rw [List.length_drop, List.length_cons] at h
        omega
      clear hd
      generalize work.take (work.length / 2) = T at hw hlenT ⊢
      subst hw
      rw [List.pairwise_append] at hs
      obtain ⟨hsT, hsMA, hTA⟩ := hs
      rw [List.pairwise_cons] at hsMA
      obtain ⟨hMA, hsA⟩ := hsMA
      have hcT : ∀ x ∈ T, (cmp pivot x < 0 ↔ key pivot < key x) :=
        fun x hx => hc x (List.mem_append_left _ hx)
      have hcA : ∀ x ∈ after, (cmp pivot x < 0 ↔ key pivot < key x) :=
        fun x hx => hc x (List.mem_append_right _ (List.mem_cons_of_mem _ hx))
      have hcM := hc middle (List.mem_append_right _ (List.mem_cons_self _ _))
      split_ifs with hlt
      · have hkm : key pivot < key middle := hcM.mp hlt
        have hA1 : after.filter (fun x => decide (key x ≤ key pivot)) = [] := by
          rw [List.filter_eq_nil_iff]
          intro x hx
          have := hMA x hx
          simp only [decide_eq_true_eq, not_le]
          exact lt_of_lt_of_le hkm this
        have hA2 : after.filter (fun x => decide (key pivot < key x)) = after := by
          rw [List.filter_eq_self]
          intro x hx
          have := hMA x hx
          simp only [decide_eq_true_eq]
          exact lt_of_lt_of_le hkm this
        rw [ih T hlenT hcT hsT]
        simp [List.filter_append, List.filter_cons, hA1, hA2, hkm, not_le.mpr hkm]
      · have hkm : key middle ≤ key pivot := not_lt.mp (fun h => hlt (hcM.mpr h))
        have hT1 : T.filter (fun x => decide (key x ≤ key pivot)) = T := by
          rw [List.filter_eq_self]
          intro x hx
          have := hTA x hx middle (List.mem_cons_self _ _)
          simp only [decide_eq_true_eq]
          exact le_trans this hkm
        have hT2 : T.filter (fun x => decide (key pivot < key x)) = [] := by
          rw [List.filter_eq_nil_iff]
          intro x hx
          have := hTA x hx middle (List.mem_cons_self _ _)
          simp only [decide_eq_true_eq, not_lt]
          exact le_trans this hkm
        rw [ih after hlenA hcA hsA]
        simp [List.filter_append, List.filter_cons, hT1, hT2, hkm, not_lt.mpr hkm]

theorem binaryInsert_sorted {α K : Type} [LinearOrder K] (cmp : α → α → ℤ) (key : α → K)
    (pivot : α) (work : List α)
    (hc : ∀ x ∈ work, (cmp pivot x < 0 ↔ key pivot < key x))
    (hs : work.Pairwise fun x y => key x ≤ key y) :
    (binaryInsert cmp pivot work.length work).Pairwise fun x y => key x ≤ key y := by
  rw [binaryInsert_eq cmp key pivot _ work le_rfl hc hs, List.pairwise_append]
  refine ⟨hs.sublist (List.filter_sublist _), ?_, ?_⟩
  · rw [List.pairwise_cons]
    refine ⟨?_, hs.sublist (List.filter_sublist _)⟩
    intro x hx
    have := (List.mem_filter.mp hx).2
    simp only [decide_eq_true_eq] at this
    exact le_of_lt this
  · intro x hx y hy
    have hx2 := (List.mem_filter.mp hx).2
    simp only [decide_eq_true_eq] at hx2
    rcases List.mem_cons.mp hy with rfl | hy
    · exact hx2
    · have hy2 := (List.mem_filter.mp hy).2
      simp only [decide_eq_true_eq] at hy2
      exact le_trans hx2 (le_of_lt hy2)

theorem binaryInsert_filter {α K : Type} [LinearOrder K] (cmp : α → α → ℤ) (key : α → K)
    (pivot : α) (work : List α)
    (hc : ∀ x ∈ work, (cmp pivot x < 0 ↔ key pivot < key x))
    (hs : work.Pairwise fun x y => key x ≤ key y) (k : K) :
    (binaryInsert cmp pivot work.length work).filter (fun x => decide (key x = k)) =
      (work ++ [pivot]).filter (fun x => decide (key x = k)) := by
  rw [binaryInsert_eq cmp key pivot _ work le_rfl hc hs]
  simp only [List.filter_append, List.filter_cons, List.filter_filter, List.filter_nil]
  by_cases hk : key pivot = k
  · subst hk
    have h1 : work.filter (fun x => decide (key x = key pivot) && decide (key x ≤ key pivot)) =
        work.filter (fun x => decide (key x = key pivot)) := by
      apply List.filter_congr
      intro x _
      by_cases h : key x = key pivot <;> simp [h]
    have h2 : work.filter (fun x => decide (key x = key pivot) && decide (key pivot < key x)) =
        [] := by
      rw [List.filter_eq_nil_iff]
      intro x _
      by_cases h : key x = key pivot <;> simp [h]
    simp [h1, h2]
  · rcases lt_or_gt_of_ne hk with hlt | hgt
    · have h1 : work.filter (fun x => decide (key x = k) && decide (key x ≤ key pivot)) = [] := by
        rw [List.filter_eq_nil_iff]
        intro x _
        by_cases h : key x = k
        · simp [h, hlt]
        · simp [h]
      have h2 : work.filter (fun x => decide (key x = k) && decide (key pivot < key x)) =
          work.filter (fun x => decide (key x = k)) := by
        apply List.filter_congr
        intro x _
        by_cases h : key x = k
        · simp [h, hlt]
        · simp [h]
      simp [h1, h2, hk]
    · have h1 : work.filter (fun x => decide (key x = k) && decide (key x ≤ key pivot)) =
          work.filter (fun x => decide (key x = k)) := by
        apply List.filter_congr
        intro x _
        by_cases h : key x = k
        · simp [h, le_of_lt hgt]
        · simp [h]
      have h2 : work.filter (fun x => decide (key x = k) && decide (key pivot < key x)) = [] := by
        rw [List.filter_eq_nil_iff]
        intro x _
        by_cases h : key x = k
        · simp [h, not_lt_of_gt hgt]
        · simp [h]
      simp [h1, h2, hk]

theorem foldl_binaryInsert_spec {α K : Type} [LinearOrder K] (cmp : α → α → ℤ) (key : α → K)
    (S : List α) (hc : ∀ x ∈ S, ∀ y ∈ S, (cmp x y < 0 ↔ key x < key y))
    (tail made orig : List α) (hm : ∀ x ∈ made, x ∈ S) (ht : ∀ x ∈ tail, x ∈ S)
    (hs : made.Pairwise fun x y => key x ≤ key y)
    (hcls : ∀ k, made.filter (fun x => decide (key x = k)) =
      orig.filter (fun x => decide (key x = k))) :
    (tail.foldl (fun work pivot => binaryInsert cmp pivot work.length work) made).Pairwise
        (fun x y => key x ≤ key y) ∧
      ∀ k, (tail.foldl (fun work pivot => binaryInsert cmp pivot work.length work) made).filter
          (fun x => decide (key x = k)) =
        (orig ++ tail).filter (fun x => decide (key x = k)) := by
  induction tail generalizing made orig with
  | nil => exact ⟨hs, by simpa using hcls⟩
  | cons p tail ih =>
    simp only [List.foldl_cons]
    have hp : p ∈ S := ht p (List.mem_cons_self _ _)
    have hcp : ∀ x ∈ made, (cmp p x < 0 ↔ key p < key x) := fun x hx => hc p hp x (hm x hx)
    have h := ih (binaryInsert cmp p made.length made) (orig ++ [p])
      (fun x hx => by
        rcases List.mem_cons.mp ((binaryInsert_perm cmp p _ made).mem_iff.mp hx) with rfl | hx
        · exact hp
        · exact hm x hx)
      (fun x hx => ht x (List.mem_cons_of_mem _ hx))
      (binaryInsert_sorted cmp key p made hcp hs)
      (fun k => by
        rw [binaryInsert_filter cmp key p made hcp hs k, List.filter_append, List.filter_append,
          hcls k])
    simpa using h

theorem takeRun_ascending {α K : Type} [LinearOrder K] (cmp : α → α → ℤ) (key : α → K)
    (S : List α) (hc : ∀ x ∈ S, ∀ y ∈ S, (cmp x y < 0 ↔ key x < key y))
    (prev : α) (l : List α) (hp : prev ∈ S) (hl : ∀ x ∈ l, x ∈ S) :
    List.Chain (fun x y => key x ≤ key y) prev (takeRun cmp false prev l).1 := by
  induction l generalizing prev with
  | nil => exact List.Chain.nil
  | cons cur rest ih =>
    unfold takeRun
    have hcur : cur ∈ S := hl cur (List.mem_cons_self _ _)
    split_ifs with h
    · refine List.Chain.cons ?_ (ih cur hcur fun x hx => hl x (List.mem_cons_of_mem _ hx))
      simp only [runContinues, Bool.false_eq_true, if_false, decide_eq_true_eq] at h
      exact not_lt.mp fun hlt => absurd ((hc cur hcur prev hp).mpr hlt) (not_lt.mpr h)
    · exact List.Chain.nil

theorem takeRun_descending {α K : Type} [LinearOrder K] (cmp : α → α → ℤ) (key : α → K)
    (S : List α) (hc : ∀ x ∈ S, ∀ y ∈ S, (cmp x y < 0 ↔ key x < key y))
    (prev : α) (l : List α) (hp : prev ∈ S) (hl : ∀ x ∈ l, x ∈ S) :
    List.Chain (fun x y => key y < key x) prev (takeRun cmp true prev l).1 := by
  induction l generalizing prev with
  | nil => exact List.Chain.nil
  | cons cur rest ih =>
    unfold takeRun
    have hcur : cur ∈ S := hl cur (List.mem_cons_self _ _)
    split_ifs with h
    · refine List.Chain.cons ?_ (ih cur hcur fun x hx => hl x (List.mem_cons_of_mem _ hx))
      simp only [runContinues, if_true, decide_eq_true_eq] at h
      exact (hc cur hcur prev hp).mp h
    · exact List.Chain.nil

theorem filter_reverse_of_strict {α K : Type} [LinearOrder K] (key : α → K) (l : List α)
    (h : l.Pairwise fun x y => key y < key x) (k : K) :
    l.reverse.filter (fun x => decide (key x = k)) = l.filter (fun x => decide (key x = k)) := by
  rw [List.filter_reverse]
  have hp : (l.filter (fun x => decide (key x = k))).Pairwise fun x y => key y < key x :=
    h.sublist (List.filter_sublist _)
  generalize hF : l.filter (fun x => decide (key x = k)) = F at hp
  have hall : ∀ x ∈ F, key x = k := by
    intro x hx
    rw [← hF] at hx
    simpa using (List.mem_filter.mp hx).2
  match F, hp, hall with
  | [], _, _ => rfl
  | [_], _, _ => rfl
  | x :: y :: _, hp, hall =>
    exfalso
    have h1 := hall x (by simp)
    have h2 := hall y (by simp)
    have h3 := (List.pairwise_cons.mp hp).1 y (by simp)
    rw [h1, h2] at h3
    exact lt_irrefl _ h3

theorem arraySort_spec {α K : Type} [LinearOrder K] (cmp : α → α → ℤ) (key : α → K)
    (l : List α) (hc : ∀ x ∈ l, ∀ y ∈ l, (cmp x y < 0 ↔ key x < key y)) :
    (arraySort cmp l).Pairwise (fun x y => key x ≤ key y) ∧
      ∀ k, (arraySort cmp l).filter (fun x => decide (key x = k)) =
        l.filter (fun x => decide (key x = k)) := by
  match l, hc with
  | [], _ => exact ⟨List.Pairwise.nil, fun _ => rfl⟩
  | [a], _ => exact ⟨List.pairwise_singleton _ _, fun _ => rfl⟩
  | a :: b :: rest, hc =>
    unfold arraySort
    simp only
    have ha : a ∈ a :: b :: rest := by simp
    have hb : b ∈ a :: b :: rest := by simp
    have hrest : ∀ x ∈ rest, x ∈ a :: b :: rest := fun x hx => by simp [hx]
    have happ := takeRun_append cmp (decide (cmp b a < 0)) b rest
    have hrun1 : ∀ x ∈ (takeRun cmp (decide (cmp b a < 0)) b rest).1, x ∈ a :: b :: rest :=
      fun x hx => hrest x (by rw [← happ]; exact List.mem_append_left _ hx)
    have hrun2 : ∀ x ∈ (takeRun cmp (decide (cmp b a < 0)) b rest).2, x ∈ a :: b :: rest :=
      fun x hx => hrest x (by rw [← happ]; exact List.mem_append_right _ hx)
    have key2 : ∀ made : List α, (∀ x ∈ made, x ∈ a :: b :: rest) →
        made.Pairwise (fun x y => key x ≤ key y) →
        (∀ k, made.filter (fun x => decide (key x = k)) =
          (a :: b :: (takeRun cmp (decide (cmp b a < 0)) b rest).1).filter
            (fun x => decide (key x = k))) →
        ((takeRun cmp (decide (cmp b a < 0)) b rest).2.foldl
            (fun work pivot => binaryInsert cmp pivot work.length work) made).Pairwise
          (fun x y => key x ≤ key y) ∧
        ∀ k, ((takeRun cmp (decide (cmp b a < 0)) b rest).2.foldl
            (fun work pivot => binaryInsert cmp pivot work.length work) made).filter
              (fun x => decide (key x = k)) =
          (a :: b :: rest).filter (fun x => decide (key x = k)) := by
      intro made hm hs hcls
      have h := foldl_binaryInsert_spec cmp key (a :: b :: rest) hc _ made _ hm hrun2 hs hcls
      simpa [happ] using h
    by_cases hd : cmp b a < 0
    · have hkey : key b < key a := (hc b hb a ha).mp hd
      simp only [hd, decide_True, if_true] at hrun1 hrun2 key2 ⊢
      have hch : List.Chain (fun x y => key y < key x) a
          (b :: (takeRun cmp true b rest).1) :=
        List.Chain.cons hkey (takeRun_descending cmp key _ hc b rest hb hrest)
      have hpw : (a :: b :: (takeRun cmp true b rest).1).Pairwise fun x y => key y < key x := by
        have : IsTrans α (fun x y => key y < key x) := ⟨fun _ _ _ h1 h2 => lt_trans h2 h1⟩
        exact List.chain_iff_pairwise.mp hch
      apply key2
      · intro x hx
        rw [List.mem_reverse] at hx
        rcases List.mem_cons.mp hx with rfl | hx
        · exact ha
        rcases List.mem_cons.mp hx with rfl | hx
        · exact hb
        · exact hrun1 x hx
      · rw [List.pairwise_reverse]
        exact hpw.imp fun h => le_of_lt h
      · intro k
        exact filter_reverse_of_strict key _ hpw k
    · have hkey : key a ≤ key b := not_lt.mp fun h => hd ((hc b hb a ha).mpr h)
      simp only [hd, decide_False, Bool.false_eq_true, if_false] at hrun1 hrun2 key2 ⊢
      have hch : List.Chain (fun x y => key x ≤ key y) a
          (b :: (takeRun cmp false b rest).1) :=
        List.Chain.cons hkey (takeRun_ascending cmp key _ hc b rest hb hrest)
      have hpw : (a :: b :: (takeRun cmp false b rest).1).Pairwise fun x y => key x ≤ key y := by
        have : IsTrans α (fun x y => key x ≤ key y) := ⟨fun _ _ _ h1 h2 => le_trans h1 h2⟩
        exact List.chain_iff_pairwise.mp hch
      apply key2
      · intro x hx
        rcases List.mem_cons.mp hx with rfl | hx
        · exact ha
        rcases List.mem_cons.mp hx with rfl | hx
        · exact hb
        · exact hrun1 x hx
      · exact hpw
      · intro k
        rfl

theorem arraySort_pairwise {α K : Type} [LinearOrder K] (cmp : α → α → ℤ) (key : α → K)
    (l : List α) (h : ∀ x ∈ l, ∀ y ∈ l, (cmp x y < 0 ↔ key x < key y)) :
    (arraySort cmp l).Pairwise fun x y => key x ≤ key y :=
  (arraySort_spec cmp key l h).1

theorem arraySort_stable {α K : Type} [LinearOrder K] (cmp : α → α → ℤ) (key : α → K)
    (l : List α) (h : ∀ x ∈ l, ∀ y ∈ l, (cmp x y < 0 ↔ key x < key y)) (a b : α)
    (hab : key a = key b) (hl : [a, b].Sublist l) : [a, b].Sublist (arraySort cmp l) := by
  have h1 : ([a, b].filter fun x => decide (key x = key b)).Sublist
      (l.filter fun x => decide (key x = key b)) := hl.filter _
  rw [← (arraySort_spec cmp key l h).2 (key b)] at h1
  have h2 : ([a, b].filter fun x => decide (key x = key b)) = [a, b] := by
    simp [hab]
  rw [h2] at h1
  exact h1.trans (List.filter_sublist _)

/-- The order of strings is that of `<` in JavaScript: by code units, a proper
initial part first, so upper-case ASCII letters before lower-case ones. -/
theorem string_order_examples :
    js "ab" < js "abc" ∧ js "B" < js "a" ∧ ¬ js "b" < js "a" ∧ ¬ js "a" < js "a" ∧
    js "adams" < js "smith" := by
  decide

theorem strLt_iff (s t : JSString) : SortKey.lt (.str s) (.str t) = true ↔ s < t := by
  simp [SortKey.lt]

/-- the comparison of one string field ascending -/
theorem compareOn_str_asc (P : Platform) (f : JSString) (a b : Student)
    (h1 : f ≠ js "averageGrade") (h2 : f ≠ js "birthDate") :
    compareOn P (js "asc") f a b =
      if P.toLowerCase (a.stringOf P f) < P.toLowerCase (b.stringOf P f) then -1
      else if P.toLowerCase (b.stringOf P f) < P.toLowerCase (a.stringOf P f) then 1 else 0 := by
  simp [compareOn, sortValue, h1, h2, SortKey.lt]

theorem stringOf_lastName (P : Platform) (a : Student) :
    a.stringOf P (js "lastName") = a.lastName := rfl

theorem stringOf_firstName (P : Platform) (a : Student) :
    a.stringOf P (js "firstName") = a.firstName := rfl

theorem compareOn_lastName (P : Platform) (a b : Student) :
    compareOn P (js "asc") (js "lastName") a b =
      if P.toLowerCase a.lastName < P.toLowerCase b.lastName then -1
      else if P.toLowerCase b.lastName < P.toLowerCase a.lastName then 1 else 0 := by
  rw [compareOn_str_asc P _ a b (by decide) (by decide), stringOf_lastName, stringOf_lastName]

theorem compareOn_firstName (P : Platform) (a b : Student) :
    compareOn P (js "asc") (js "firstName") a b =
      if P.toLowerCase a.firstName < P.toLowerCase b.firstName then -1
      else if P.toLowerCase b.firstName < P.toLowerCase a.firstName then 1 else 0 := by
  rw [compareOn_str_asc P _ a b (by decide) (by decide), stringOf_firstName, stringOf_firstName]

theorem compare_name_lt_iff (P : Platform) (a b : Student) :
    compareStudents P (.list [js "lastName", js "firstName"]) (js "asc") a b < 0 ↔
      toLex (P.toLowerCase a.lastName, P.toLowerCase a.firstName) <
        toLex (P.toLowerCase b.lastName, P.toLowerCase b.firstName) := by
  rw [Prod.Lex.lt_iff]
  simp only [compareStudents, compareList, compareOn_lastName, compareOn_firstName]
  rcases lt_trichotomy (P.toLowerCase a.lastName) (P.toLowerCase b.lastName) with h | h | h
  · simp [h]
  · rcases lt_trichotomy (P.toLowerCase a.firstName) (P.toLowerCase b.firstName) with h2 | h2 | h2
    · simp [h, h2]
    · simp [h, h2]
    · simp [h, h2, not_lt_of_lt h2]
  · simp [h, not_lt_of_lt h, ne_of_gt h]

/-- **C3.** `sortStudents(["lastName","firstName"], "asc")` returns a
permutation of the roster in which, for every two records `a` before `b`
(adjacent ones in particular), the lower-cased `lastName` of `a` is smaller
than that of `b` in the order of strings, or the two are equal and the
lower-cased `firstName` of `a` is not greater than that of `b`; on a platform
that lower-cases ASCII text as every engine does, the roster
(Smith, Bob), (Smith, Ann), (Adams, Zoe) comes out as
(Adams, Zoe), (Smith, Ann), (Smith, Bob). -/
theorem sortStudents_names (P : Platform) (g : StudentGroup) :
    (g.sortStudents P (.list [js "lastName", js "firstName"]) (js "asc")).Perm g.students ∧
    (g.sortStudents P (.list [js "lastName", js "firstName"]) (js "asc")).Pairwise
      (fun a b =>
        P.toLowerCase a.lastName < P.toLowerCase b.lastName ∨
        (P.toLowerCase a.lastName = P.toLowerCase b.lastName ∧
          ¬ P.toLowerCase b.firstName < P.toLowerCase a.firstName)) ∧
    (g.sortStudents P (.list [js "lastName", js "firstName"]) (js "asc")).Chain'
      (fun a b =>
        P.toLowerCase a.lastName < P.toLowerCase b.lastName ∨
        (P.toLowerCase a.lastName = P.toLowerCase b.lastName ∧
          ¬ P.toLowerCase b.firstName < P.toLowerCase a.firstName)) ∧
    (AsciiLower P → ∀ bob ann zoe : Student,
      bob.lastName = js "Smith" → bob.firstName = js "Bob" →
      ann.lastName = js "Smith" → ann.firstName = js "Ann" →
      zoe.lastName = js "Adams" → zoe.firstName = js "Zoe" →
      StudentGroup.sortStudents P ⟨[bob, ann, zoe]⟩ (.list [js "lastName", js "firstName"])
        (js "asc") = [zoe, ann, bob]) := by
  have hpw : (g.sortStudents P (.list [js "lastName", js "firstName"]) (js "asc")).Pairwise
      (fun a b =>
        P.toLowerCase a.lastName < P.toLowerCase b.lastName ∨
        (P.toLowerCase a.lastName = P.toLowerCase b.lastName ∧
          ¬ P.toLowerCase b.firstName < P.toLowerCase a.firstName)) := by
    have h := arraySort_pairwise
      (compareStudents P (.list [js "lastName", js "firstName"]) (js "asc"))
      (fun a : Student => toLex (P.toLowerCase a.lastName, P.toLowerCase a.firstName))
      g.students (fun a _ b _ => compare_name_lt_iff P a b)
    refine h.imp ?_
    intro a b hab
    rw [Prod.Lex.le_iff] at hab
    simpa [not_lt] using hab
  refine ⟨arraySort_perm _ _, hpw, hpw.chain', ?_⟩
  intro hP bob ann zoe hb1 hb2 ha1 ha2 hz1 hz2
  have hSmith : P.toLowerCase (js "Smith") = js "smith" := by
    rw [hP _ (by decide)]; decide
  have hAdams : P.toLowerCase (js "Adams") = js "adams" := by
    rw [hP _ (by decide)]; decide
  have hBob : P.toLowerCase (js "Bob") = js "bob" := by
    rw [hP _ (by decide)]; decide
  have hAnn : P.toLowerCase (js "Ann") = js "ann" := by
    rw [hP _ (by decide)]; decide
  have hZoe : P.toLowerCase (js "Zoe") = js "zoe" := by
    rw [hP _ (by decide)]; decide
  have h1 : compareStudents P (.list [js "lastName", js "firstName"]) (js "asc") ann bob < 0 := by
    rw [compare_name_lt_iff, Prod.Lex.lt_iff, hb1, hb2, ha1, ha2, hSmith, hBob, hAnn]
    decide
  have h2 : compareStudents P (.list [js "lastName", js "firstName"]) (js "asc") zoe ann < 0 := by
    rw [compare_name_lt_iff, Prod.Lex.lt_iff, ha1, ha2, hz1, hz2, hSmith, hAdams, hAnn, hZoe]
    decide
  simp [StudentGroup.sortStudents, arraySort, takeRun, runContinues, h1, h2]

/-! ### Floating point -/

theorem pow2_eq_zpow (e : ℤ) : pow2 e = (2 : ℚ) ^ e := by
  unfold pow2
  split_ifs with h
  · lift e to ℕ using h
    simp
  · push_neg at h
    obtain ⟨n, hn⟩ : ∃ n : ℕ, -e = n := ⟨(-e).toNat, (Int.toNat_of_nonneg (by omega)).symm⟩
    have he : e = -(n : ℤ) := by omega
    rw [hn, he]
    simp

theorem pow2_pos (e : ℤ) : 0 < pow2 e := by
  rw [pow2_eq_zpow]; positivity

theorem pow_log2Fuel_le (fuel n : ℕ) (hn : 0 < n) : 2 ^ log2Fuel fuel n ≤ n := by
  induction fuel generalizing n with
  | zero => simpa [log2Fuel] using hn
  | succ fuel ih =>
    unfold log2Fuel
    split_ifs with h
    · simpa using hn
    · have := ih (n / 2) (by omega)
      rw [pow_succ]
      omega

theorem lt_pow_log2Fuel (fuel n : ℕ) (hn : n < 2 ^ fuel) : n < 2 ^ (log2Fuel fuel n + 1) := by
  induction fuel generalizing n with
  | zero =>
    simp at hn
    simp [log2Fuel, hn]
  | succ fuel ih =>
    unfold log2Fuel
    split_ifs with h
    · simpa using h
    · have := ih (n / 2) (by rw [pow_succ] at hn; omega)
      rw [pow_succ]
      omega

theorem pow_natLog2_le (n : ℕ) (hn : 0 < n) : 2 ^ natLog2 n ≤ n :=
  pow_log2Fuel_le n n hn

theorem lt_pow_natLog2 (n : ℕ) : n < 2 ^ (natLog2 n + 1) :=
  lt_pow_log2Fuel n n (Nat.lt_two_pow n)

theorem pow2_floorLog2_le (q : ℚ) (hq : 0 < q) : pow2 (floorLog2 q) ≤ q := by
  unfold floorLog2
  simp only
  split_ifs with h
  · exact h
  · rw [pow2_eq_zpow]
    have hnum : 0 < q.num := Rat.num_pos.mpr hq
    obtain ⟨m, hm⟩ : ∃ m : ℕ, q.num = m := ⟨q.num.toNat, (Int.toNat_of_nonneg hnum.le).symm⟩
    have hm0 : 0 < m := by
      have : (0 : ℤ) < m := hm ▸ hnum
      exact_mod_cast this
    have h1 := pow_natLog2_le m hm0
    have h2 := lt_pow_natLog2 q.den
    have hqe : q = (m : ℚ) / (q.den : ℚ) := by
      conv_lhs => rw [← Rat.num_div_den q, hm]
      simp
    have hnat : q.num.natAbs = m := by rw [hm]; simp
    rw [hnat]
    have hden : (0 : ℚ) < q.den := by exact_mod_cast q.den_pos
    have e1 : ((natLog2 m : ℤ) - (natLog2 q.den : ℤ) - 1) =
        (natLog2 m : ℤ) - ((natLog2 q.den + 1 : ℕ) : ℤ) := by push_cast; ring
    have h1' : ((2 : ℚ) ^ natLog2 m) ≤ m := by exact_mod_cast h1
    have h2' : (q.den : ℚ) ≤ (2 : ℚ) ^ (natLog2 q.den + 1) := by exact_mod_cast h2.le
    have key : (2 : ℚ) ^ natLog2 m / (2 : ℚ) ^ (natLog2 q.den + 1) ≤ (m : ℚ) / (q.den : ℚ) := by
      rw [div_le_div_iff₀ (by positivity) hden]
      calc (2 : ℚ) ^ natLog2 m * q.den ≤ m * q.den := by gcongr
        _ ≤ m * (2 : ℚ) ^ (natLog2 q.den + 1) := by gcongr
    rw [e1, zpow_sub₀ (by norm_num), zpow_natCast, zpow_natCast]
    exact key.trans (le_of_eq hqe.symm)

theorem floorLog2_lt (q : ℚ) (hq : 0 < q) (k : ℤ) (h : q < (2 : ℚ) ^ k) : floorLog2 q < k := by
  have h1 := pow2_floorLog2_le q hq
  rw [pow2_eq_zpow] at h1
  have := lt_of_le_of_lt h1 h
  exact (zpow_lt_zpow_iff_right₀ (by norm_num : (1 : ℚ) < 2)).mp this

theorem roundHalfEven_int (k : ℤ) : roundHalfEven (k : ℚ) = k := by
  simp [roundHalfEven]

theorem abs_roundHalfEven_sub_le (x : ℚ) : |(roundHalfEven x : ℚ) - x| ≤ 1 / 2 := by
  unfold roundHalfEven
  have h1 := Int.floor_le x
  have h2 := Int.lt_floor_add_one x
  simp only
  split_ifs with ha hb hc
  · rw [abs_le]; constructor <;> linarith
  · push_cast; rw [abs_le]; constructor <;> linarith
  · push_neg at ha hb
    rw [abs_le]; constructor <;> linarith
  · push_neg at ha hb
    push_cast; rw [abs_le]; constructor <;> linarith

theorem roundHalfEven_nonneg (x : ℚ) (hx : 0 ≤ x) : 0 ≤ roundHalfEven x := by
  unfold roundHalfEven
  have h0 : 0 ≤ ⌊x⌋ := Int.floor_nonneg.mpr hx
  simp only
  split_ifs <;> omega

theorem ulp_pos (q : ℚ) : 0 < ulp q := pow2_pos _

theorem ulp_eq_zpow (q : ℚ) : ulp q = (2 : ℚ) ^ (max (floorLog2 |q|) (-1022) - 52) := by
  rw [ulp, pow2_eq_zpow]

/-- A finite result of `roundDouble` for a number that is not negative and
does not overflow. -/
theorem roundDouble_of_nonneg (q : ℚ) (hq : 0 ≤ q)
    (h : (roundHalfEven (q / ulp q) : ℚ) * ulp q < (2 : ℚ) ^ (1024 : ℤ)) :
    roundDouble q = .fin ((roundHalfEven (q / ulp q) : ℚ) * ulp q) := by
  unfold roundDouble
  by_cases h0 : q = 0
  · subst h0
    simp [roundHalfEven]
  · rw [if_neg h0]
    simp only [abs_of_nonneg hq, pow2_eq_zpow, not_lt.mpr hq, if_false]
    rw [if_neg (not_le.mpr h)]

theorem roundDouble_natCast (k : ℕ) (hk : k < 2 ^ 53) : roundDouble (k : ℚ) = .fin (k : ℚ) := by
  by_cases h0 : k = 0
  · subst h0
    simp [roundDouble]
  have hq : (0 : ℚ) < k := by exact_mod_cast Nat.pos_of_ne_zero h0
  have hlt : floorLog2 (k : ℚ) < 53 := by
    apply floorLog2_lt _ hq
    have : ((k : ℚ)) < ((2 ^ 53 : ℕ) : ℚ) := by exact_mod_cast hk
    calc (k : ℚ) < ((2 ^ 53 : ℕ) : ℚ) := this
      _ = (2 : ℚ) ^ (53 : ℤ) := by norm_num
  obtain ⟨j, hj⟩ : ∃ j : ℕ, (52 : ℤ) - max (floorLog2 |(k : ℚ)|) (-1022) = j := by
    refine ⟨(52 - max (floorLog2 |(k : ℚ)|) (-1022)).toNat, (Int.toNat_of_nonneg ?_).symm⟩
    rw [abs_of_pos hq]
    have : max (floorLog2 (k : ℚ)) (-1022) ≤ 52 := max_le (by omega) (by norm_num)
    omega
  have hu : ulp (k : ℚ) = ((2 : ℚ) ^ j)⁻¹ := by
    rw [ulp_eq_zpow, ← zpow_natCast, ← zpow_neg, ← hj]
    congr 1
    ring
  have hdiv : (k : ℚ) / ulp (k : ℚ) = ((k * 2 ^ j : ℕ) : ℤ) := by
    rw [hu]
    push_cast
    field_simp
  have hr : (roundHalfEven ((k : ℚ) / ulp (k : ℚ)) : ℚ) * ulp (k : ℚ) = k := by
    rw [hdiv, roundHalfEven_int, hu]
    push_cast
    field_simp
  rw [roundDouble_of_nonneg _ hq.le, hr]
  rw [hr]
  have : ((k : ℚ)) < ((2 ^ 53 : ℕ) : ℚ) := by exact_mod_cast hk
  calc (k : ℚ) < ((2 ^ 53 : ℕ) : ℚ) := this
    _ ≤ (2 : ℚ) ^ (1024 : ℤ) := by norm_num

theorem roundDouble_near (q : ℚ) (h0 : 0 ≤ q) (h : q < 128) :
    ∃ d : ℚ, roundDouble q = .fin d ∧ 0 ≤ d ∧ |d - q| ≤ 1 / 2 ^ 47 := by
  by_cases hq0 : q = 0
  · subst hq0
    exact ⟨0, by simp [roundDouble], le_refl _, by norm_num⟩
  have hq : 0 < q := lt_of_le_of_ne h0 (Ne.symm hq0)
  have hlt : floorLog2 q < 7 := floorLog2_lt _ hq 7 (by norm_num; exact h)
  have hu : ulp q ≤ 1 / 2 ^ 46 := by
    rw [ulp_eq_zpow, abs_of_pos hq]
    have hmax : max (floorLog2 q) (-1022) - 52 ≤ -46 := by
      have : max (floorLog2 q) (-1022) ≤ 6 := max_le (by omega) (by norm_num)
      omega
    calc (2 : ℚ) ^ (max (floorLog2 q) (-1022) - 52) ≤ (2 : ℚ) ^ (-46 : ℤ) :=
          zpow_le_zpow_right₀ (by norm_num) hmax
      _ = 1 / 2 ^ 46 := by norm_num
  have hup := ulp_pos q
  have hn := abs_roundHalfEven_sub_le (q / ulp q)
  have hnn := roundHalfEven_nonneg (q / ulp q) (by positivity)
  have herr : |(roundHalfEven (q / ulp q) : ℚ) * ulp q - q| ≤ 1 / 2 ^ 47 := by
    have e : (roundHalfEven (q / ulp q) : ℚ) * ulp q - q =
        ((roundHalfEven (q / ulp q) : ℚ) - q / ulp q) * ulp q := by
      field_simp
    rw [e, abs_mul, abs_of_pos hup]
    calc |(roundHalfEven (q / ulp q) : ℚ) - q / ulp q| * ulp q ≤ 1 / 2 * (1 / 2 ^ 46) := by
          gcongr
      _ = 1 / 2 ^ 47 := by norm_num
  refine ⟨(roundHalfEven (q / ulp q) : ℚ) * ulp q, ?_, ?_, herr⟩
  · apply roundDouble_of_nonneg _ h0
    have := (abs_le.mp herr).2
    calc (roundHalfEven (q / ulp q) : ℚ) * ulp q ≤ q + 1 / 2 ^ 47 := by linarith
      _ < 129 := by norm_num; linarith
      _ ≤ (2 : ℚ) ^ (1024 : ℤ) := by norm_num
  · have : (0 : ℚ) ≤ roundHalfEven (q / ulp q) := by exact_mod_cast hnn
    positivity

theorem digitsFuel_append (fuel n : ℕ) (acc : JSString) :
    digitsFuel fuel n acc = digitsFuel fuel n [] ++ acc := by
  induction fuel generalizing n acc with
  | zero => simp [digitsFuel]
  | succ fuel ih =>
    unfold digitsFuel
    split_ifs
    · simp
    · rw [ih, ih (n / 10) [48 + n % 10]]
      simp

theorem digitsFuel_fuel (fuel fuel2 n : ℕ) (acc : JSString) (h : n < 10 ^ (fuel + 1))
    (h2 : n < 10 ^ (fuel2 + 1)) : digitsFuel fuel n acc = digitsFuel fuel2 n acc := by
  induction fuel generalizing fuel2 n acc with
  | zero =>
    have hn : n < 10 := by simpa using h
    cases fuel2 with
    | zero => rfl
    | succ f => simp [digitsFuel, hn, Nat.mod_eq_of_lt hn]
  | succ fuel ih =>
    by_cases hn : n < 10
    · cases fuel2 with
      | zero => simp [digitsFuel, hn, Nat.mod_eq_of_lt hn]
      | succ f => simp [digitsFuel, hn]
    · cases fuel2 with
      | zero => simp at h2; omega
      | succ f =>
        simp only [digitsFuel, if_neg hn]
        apply ih
        · rw [pow_succ] at h; omega
        · rw [pow_succ] at h2; omega

theorem decimalDigits_lt (n : ℕ) (h : n < 10) : decimalDigits n = [48 + n] := by
  unfold decimalDigits
  cases n with
  | zero => rfl
  | succ m => simp [digitsFuel, h]

theorem decimalDigits_ge (n : ℕ) (h : 10 ≤ n) :
    decimalDigits n = decimalDigits (n / 10) ++ [48 + n % 10] := by
  unfold decimalDigits
  obtain ⟨m, rfl⟩ : ∃ m, n = m + 1 := ⟨n - 1, by omega⟩
  rw [digitsFuel, if_neg (by omega), digitsFuel_append]
  congr 1
  apply digitsFuel_fuel
  · have := Nat.lt_pow_self (show 1 < 10 by norm_num) (m + 1)
    have h3 : (m + 1) / 10 < m + 1 := Nat.div_lt_self (by omega) (by norm_num)
    calc (m + 1) / 10 < m + 1 := h3
      _ < 10 ^ (m + 1) := this
  · have := Nat.lt_pow_self (show 1 < 10 by norm_num) ((m + 1) / 10)
    calc (m + 1) / 10 < 10 ^ ((m + 1) / 10) := this
      _ ≤ 10 ^ ((m + 1) / 10 + 1) := Nat.pow_le_pow_right (by norm_num) (by omega)

theorem decimalDigits_length_pos (n : ℕ) : 0 < (decimalDigits n).length := by
  by_cases h : n < 10
  · simp [decimalDigits_lt n h]
  · rw [decimalDigits_ge n (by omega)]
    simp

theorem pointBeforeLastTwo (D : JSString) (a b : ℕ) (hD : 0 < D.length) :
    (if (D ++ [a, b]).length ≤ 2 then List.replicate (3 - (D ++ [a, b]).length) 48 ++ (D ++ [a, b])
      else D ++ [a, b]) = D ++ [a, b] ∧
    (D ++ [a, b]).take ((D ++ [a, b]).length - 2) ++ [46] ++
      (D ++ [a, b]).drop ((D ++ [a, b]).length - 2) = D ++ [46, a, b] := by
  have hlen : (D ++ [a, b]).length = D.length + 2 := by simp
  constructor
  · rw [if_neg (by omega)]
  · rw [hlen, Nat.add_sub_cancel, List.take_left, List.drop_left]
    simp

/-- The text of `fixed2`: the decimal digits of the whole part, a point, the
digit of tenths and the digit of hundredths. -/
theorem fixed2_eq (n : ℕ) :
    fixed2 n = decimalDigits (n / 100) ++ [46, 48 + n / 10 % 10, 48 + n % 10] := by
  unfold fixed2
  by_cases h1 : n < 10
  · have e0 : n / 100 = 0 := by omega
    have e1 : n / 10 % 10 = 0 := by omega
    have e2 : n % 10 = n := by omega
    rw [decimalDigits_lt n h1, e0, e1, e2]
    rfl
  by_cases h2 : n < 100
  · have e0 : n / 100 = 0 := by omega
    have e1 : n / 10 % 10 = n / 10 := by omega
    rw [decimalDigits_ge n (by omega), decimalDigits_lt (n / 10) (by omega), e0, e1]
    rfl
  · have e : n / 10 / 10 = n / 100 := by omega
    have hpos := decimalDigits_length_pos (n / 100)
    have hd : decimalDigits n = decimalDigits (n / 100) ++ [48 + n / 10 % 10, 48 + n % 10] := by
      rw [decimalDigits_ge n (by omega), decimalDigits_ge (n / 10) (by omega), e]
      simp
    obtain ⟨k1, k2⟩ := pointBeforeLastTwo (decimalDigits (n / 100)) (48 + n / 10 % 10)
      (48 + n % 10) hpos
    simp only [hd, k1, k2]


/-- Whole-number grades are added without rounding while the sum stays below 2 ^ 53. -/
theorem foldl_add_natCast (G : List ℕ) (a : ℕ) (h : a + G.sum < 2 ^ 53) :
    (G.map (Nat.cast : ℕ → ℚ)).foldl (fun acc grade => JSNumber.add acc (.fin grade))
      (.fin (a : ℚ)) = .fin ((a + G.sum : ℕ) : ℚ) := by
  induction G generalizing a with
  | nil => simp
  | cons g G ih =>
    simp only [List.map_cons, List.foldl_cons, List.sum_cons] at h ⊢
    have e : JSNumber.add (.fin (a : ℚ)) (.fin (g : ℚ)) = .fin ((a + g : ℕ) : ℚ) := by
      show roundDouble ((a : ℚ) + (g : ℚ)) = _
      rw [← Nat.cast_add]
      exact roundDouble_natCast _ (by omega)
    rw [e, ih (a + g) (by omega)]
    congr 2
    omega

theorem sum_le_of_forall_le (G : List ℕ) (hG : ∀ g ∈ G, g ≤ 100) : G.sum ≤ 100 * G.length := by
  induction G with
  | nil => simp
  | cons g G ih =>
    simp only [List.sum_cons, List.length_cons]
    have := hG g (by simp)
    have := ih fun x hx => hG x (List.mem_cons_of_mem _ hx)
    omega

/-- Whole-number grades are added without rounding: for every non-empty
sequence of whole-number grades in [0, 100] with fewer than 2 ^ 32 entries
(every JavaScript array has fewer), `averageGrade` is the text of a hundredth
nearest to the arithmetic mean of the grades: the digits of the whole part, a
point and two fractional digits, of a value `N / 100` that differs from the
mean by at most 0.005. For the grades 80, 90, 100 it is `"90.00"`. -/
theorem calculateAverage_whole (P : Platform) (G : List ℕ) (hne : G ≠ [])
    (hlen : G.length < 2 ^ 32) (hG : ∀ g ∈ G, g ≤ 100) :
    (∃ N : ℕ,
      calculateAverage P (G.map (Nat.cast : ℕ → ℚ)) =
        .text (decimalDigits (N / 100) ++ [46, 48 + N / 10 % 10, 48 + N % 10]) ∧
      |(N : ℚ) / 100 - (G.sum : ℚ) / (G.length : ℚ)| ≤ 1 / 200) ∧
    calculateAverage P [80, 90, 100] = .text (js "90.00") := by
  have main : ∀ G : List ℕ, G ≠ [] → G.length < 2 ^ 32 → (∀ g ∈ G, g ≤ 100) →
      ∃ N : ℕ, calculateAverage P (G.map (Nat.cast : ℕ → ℚ)) = .text (fixed2 N) ∧
        |(N : ℚ) / 100 - (G.sum : ℚ) / (G.length : ℚ)| ≤ 1 / 200 := by
    intro G hne hlen hG
    have hl0 : 0 < G.length := List.length_pos.mpr hne
    have hS := sum_le_of_forall_le G hG
    have hLq : (0 : ℚ) < (G.length : ℚ) := by exact_mod_cast hl0
    have hfold := foldl_add_natCast G 0 (by omega)
    simp only [Nat.cast_zero, zero_add] at hfold
    have hm0 : (0 : ℚ) ≤ (G.sum : ℚ) / (G.length : ℚ) := by positivity
    have hm100 : (G.sum : ℚ) / (G.length : ℚ) ≤ 100 := by
      rw [div_le_iff₀ hLq]
      exact_mod_cast hS
    obtain ⟨d, hd, hd0, hdm⟩ := roundDouble_near _ hm0 (by linarith)
    have hcalc : calculateAverage P (G.map (Nat.cast : ℕ → ℚ)) =
        .text (fixed2 ⌊d * 100 + 1 / 2⌋.toNat) := by
      unfold calculateAverage
      rw [if_neg (by simp; exact hne)]
      simp only [hfold, List.length_map]
      have hdiv : JSNumber.div (.fin (G.sum : ℚ)) (.fin (G.length : ℚ)) = .fin d := by
        show (if (G.length : ℚ) = 0 then _ else roundDouble _) = _
        rw [if_neg hLq.ne', hd]
      rw [hdiv]
      have hd21 : ¬ (1000000000000000000000 : ℚ) ≤ |d| := by
        rw [abs_of_nonneg hd0, not_le]
        have := (abs_le.mp hdm).2
        linarith
      rw [abs_of_nonneg hd0] at hd21
      simp only [toFixed2, not_lt.mpr hd0, if_false, if_neg hd21, List.nil_append,
        abs_of_nonneg hd0]
    refine ⟨⌊d * 100 + 1 / 2⌋.toNat, hcalc, ?_⟩
    have hfl0 : 0 ≤ ⌊d * 100 + 1 / 2⌋ := Int.floor_nonneg.mpr (by positivity)
    have hN : ((⌊d * 100 + 1 / 2⌋.toNat : ℕ) : ℚ) = (⌊d * 100 + 1 / 2⌋ : ℚ) := by
      have : ((⌊d * 100 + 1 / 2⌋.toNat : ℕ) : ℤ) = ⌊d * 100 + 1 / 2⌋ := Int.toNat_of_nonneg hfl0
      exact_mod_cast this
    rw [hN]
    set F : ℤ := ⌊d * 100 + 1 / 2⌋ with hF
    have h1 : (F : ℚ) ≤ d * 100 + 1 / 2 := Int.floor_le _
    have h2 : d * 100 + 1 / 2 < (F : ℚ) + 1 := Int.lt_floor_add_one _
    obtain ⟨h3, h4⟩ := abs_le.mp hdm
    set L : ℕ := G.length with hL
    set S : ℕ := G.sum with hSdef
    have hLlt : (L : ℚ) < 2 ^ 32 := by exact_mod_cast hlen
    have hmul : (S : ℚ) / L * L = S := by field_simp
    -- the integer 2 * F * L - 200 * S lies in [-L, L]
    have up : 2 * F * L - 200 * S < (L : ℤ) + 1 := by
      have : ((2 * F * L - 200 * S : ℤ) : ℚ) < ((L : ℤ) + 1 : ℤ) := by
        push_cast
        have e : (2 : ℚ) * F * L - 200 * S = 2 * L * (F - 100 * (S / L)) := by
          field_simp; ring
        rw [e]
        have b1 : (F : ℚ) - 100 * (S / L) ≤ 1 / 2 + 100 * (1 / 2 ^ 47) := by linarith
        have b2 : 2 * (L : ℚ) * (F - 100 * (S / L)) ≤ 2 * L * (1 / 2 + 100 * (1 / 2 ^ 47)) := by
          gcongr
        have b3 : 2 * (L : ℚ) * (1 / 2 + 100 * (1 / 2 ^ 47)) < L + 1 := by
          have : 2 * (L : ℚ) * (100 * (1 / 2 ^ 47)) < 1 := by
            calc 2 * (L : ℚ) * (100 * (1 / 2 ^ 47)) = L * (200 / 2 ^ 47) := by ring
              _ < 2 ^ 32 * (200 / 2 ^ 47) := by gcongr
              _ < 1 := by norm_num
          linarith
        linarith
      exact_mod_cast this
    have lo : -(L : ℤ) - 1 < 2 * F * L - 200 * S := by
      have : ((-(L : ℤ) - 1 : ℤ) : ℚ) < ((2 * F * L - 200 * S : ℤ) : ℚ) := by
        push_cast
        have e : (2 : ℚ) * F * L - 200 * S = 2 * L * (F - 100 * (S / L)) := by
          field_simp; ring
        rw [e]
        have b1 : -(1 / 2 + 100 * (1 / 2 ^ 47)) ≤ (F : ℚ) - 100 * (S / L) := by linarith
        have b2 : 2 * (L : ℚ) * (-(1 / 2 + 100 * (1 / 2 ^ 47))) ≤ 2 * L * (F - 100 * (S / L)) := by
          gcongr
        have b3 : -(L : ℚ) - 1 < 2 * (L : ℚ) * (-(1 / 2 + 100 * (1 / 2 ^ 47))) := by
          have : 2 * (L : ℚ) * (100 * (1 / 2 ^ 47)) < 1 := by
            calc 2 * (L : ℚ) * (100 * (1 / 2 ^ 47)) = L * (200 / 2 ^ 47) := by ring
              _ < 2 ^ 32 * (200 / 2 ^ 47) := by gcongr
              _ < 1 := by norm_num
          linarith
        linarith
      exact_mod_cast this
    have up' : ((2 * F * L - 200 * S : ℤ) : ℚ) ≤ (L : ℚ) := by
      have : 2 * F * L - 200 * S ≤ (L : ℤ) := by omega
      exact_mod_cast this
    have lo' : -(L : ℚ) ≤ ((2 * F * L - 200 * S : ℤ) : ℚ) := by
      have : -(L : ℤ) ≤ 2 * F * L - 200 * S := by omega
      exact_mod_cast this
    push_cast at up' lo'
    have e : (F : ℚ) / 100 - (S : ℚ) / L = (2 * F * L - 200 * S) / (200 * L) := by
      field_simp; ring
    rw [e, abs_le]
    constructor
    · rw [le_div_iff₀ (by positivity)]
      linarith
    · rw [div_le_iff₀ (by positivity)]
      linarith
  constructor
  · obtain ⟨N, h1, h2⟩ := main G hne hlen hG
    exact ⟨N, by rw [h1, fixed2_eq], h2⟩
  · obtain ⟨N, h1, h2⟩ := main [80, 90, 100] (by simp) (by simp) (by simp)
    have e : ((([80, 90, 100] : List ℕ).sum : ℕ) : ℚ) / (([80, 90, 100] : List ℕ).length : ℚ) = 90 := by
      norm_num
    rw [e] at h2
    have hN : N = 9000 := by
      obtain ⟨h3, h4⟩ := abs_le.mp h2
      have a1 : (N : ℚ) ≤ 9000 + 1 / 2 := by linarith
      have a2 : (9000 : ℚ) - 1 / 2 ≤ N := by linarith
      have a3 : (N : ℚ) < 9001 := by linarith
      have a4 : (8999 : ℚ) < N := by linarith
      have a5 : N < 9001 := by exact_mod_cast a3
      have a6 : 8999 < N := by exact_mod_cast a4
      omega
    subst hN
    have e2 : (List.map (Nat.cast : ℕ → ℚ) [80, 90, 100]) = [80, 90, 100] := by simp
    rw [e2] at h1
    rw [h1]
    decide


theorem roundDouble_near17 (q : ℚ) (h0 : 0 ≤ q) (h : q < 131072) :
    ∃ d : ℚ, roundDouble q = .fin d ∧ 0 ≤ d ∧ |d - q| ≤ 1 / 2 ^ 37 := by
  by_cases hq0 : q = 0
  · subst hq0
    exact ⟨0, by simp [roundDouble], le_refl _, by norm_num⟩
  have hq : 0 < q := lt_of_le_of_ne h0 (Ne.symm hq0)
  have hlt : floorLog2 q < 17 := floorLog2_lt _ hq 17 (by norm_num; exact h)
  have hu : ulp q ≤ 1 / 2 ^ 36 := by
    rw [ulp_eq_zpow, abs_of_pos hq]
    have hmax : max (floorLog2 q) (-1022) - 52 ≤ -36 := by
      have : max (floorLog2 q) (-1022) ≤ 16 := max_le (by omega) (by norm_num)
      omega
    calc (2 : ℚ) ^ (max (floorLog2 q) (-1022) - 52) ≤ (2 : ℚ) ^ (-36 : ℤ) :=
          zpow_le_zpow_right₀ (by norm_num) hmax
      _ = 1 / 2 ^ 36 := by norm_num
  have hup := ulp_pos q
  have hn := abs_roundHalfEven_sub_le (q / ulp q)
  have hnn := roundHalfEven_nonneg (q / ulp q) (by positivity)
  have herr : |(roundHalfEven (q / ulp q) : ℚ) * ulp q - q| ≤ 1 / 2 ^ 37 := by
    have e : (roundHalfEven (q / ulp q) : ℚ) * ulp q - q =
        ((roundHalfEven (q / ulp q) : ℚ) - q / ulp q) * ulp q := by
      field_simp
    rw [e, abs_mul, abs_of_pos hup]
    calc |(roundHalfEven (q / ulp q) : ℚ) - q / ulp q| * ulp q ≤ 1 / 2 * (1 / 2 ^ 36) := by
          gcongr
      _ = 1 / 2 ^ 37 := by norm_num
  refine ⟨(roundHalfEven (q / ulp q) : ℚ) * ulp q, ?_, ?_, herr⟩
  · apply roundDouble_of_nonneg _ h0
    have := (abs_le.mp herr).2
    calc (roundHalfEven (q / ulp q) : ℚ) * ulp q ≤ q + 1 / 2 ^ 37 := by linarith
      _ < 131073 := by norm_num; linarith
      _ ≤ (2 : ℚ) ^ (1024 : ℤ) := by norm_num
  · have : (0 : ℚ) ≤ roundHalfEven (q / ulp q) := by exact_mod_cast hnn
    positivity

/-- The sum of at most 1000 grades in [0, 100], as the loop of `reduce`
computes it: each addition is off by at most `2 ^ -37`. -/
theorem foldl_add_near (G : List ℚ) (hG : ∀ g ∈ G, 0 ≤ g ∧ g ≤ 100) (a s : ℚ) (k : ℕ)
    (ha : 0 ≤ a) (has : |a - s| ≤ k / 2 ^ 37) (hs : s ≤ 100 * k) (hk : k + G.length ≤ 1000) :
    ∃ d : ℚ, G.foldl (fun acc grade => JSNumber.add acc (.fin grade)) (.fin a) = .fin d ∧
      0 ≤ d ∧ |d - (s + G.sum)| ≤ ((k + G.length : ℕ) : ℚ) / 2 ^ 37 := by
  induction G generalizing a s k with
  | nil => exact ⟨a, rfl, ha, by simpa using has⟩
  | cons g G ih =>
    obtain ⟨hg0, hg100⟩ := hG g (by simp)
    simp only [List.length_cons] at hk
    have hk' : (k : ℚ) ≤ 999 := by exact_mod_cast (by omega : k ≤ 999)
    obtain ⟨h1, h2⟩ := abs_le.mp has
    have hk37 : (k : ℚ) / 2 ^ 37 ≤ 1 := by
      rw [div_le_one (by positivity)]
      calc (k : ℚ) ≤ 999 := hk'
        _ ≤ 2 ^ 37 := by norm_num
    have hlt : a + g < 131072 := by nlinarith
    obtain ⟨d1, hd1, hd10, hd1e⟩ := roundDouble_near17 (a + g) (by linarith) hlt
    have hstep : JSNumber.add (.fin a) (.fin g) = .fin d1 := hd1
    obtain ⟨h3, h4⟩ := abs_le.mp hd1e
    have has' : |d1 - (s + g)| ≤ ((k + 1 : ℕ) : ℚ) / 2 ^ 37 := by
      push_cast
      rw [abs_le]
      constructor
      · have : -(((k : ℚ) + 1) / 2 ^ 37) = -((k : ℚ) / 2 ^ 37) - 1 / 2 ^ 37 := by ring
        rw [this]; linarith
      · have : (((k : ℚ) + 1) / 2 ^ 37) = ((k : ℚ) / 2 ^ 37) + 1 / 2 ^ 37 := by ring
        rw [this]; linarith
    obtain ⟨d, hd, hd0, hde⟩ := ih (fun x hx => hG x (List.mem_cons_of_mem _ hx)) d1 (s + g)
      (k + 1) hd10 has' (by push_cast; linarith) (by omega)
    refine ⟨d, ?_, hd0, ?_⟩
    · simp only [List.foldl_cons, hstep, hd]
    · simp only [List.sum_cons, List.length_cons]
      have e1 : s + (g + G.sum) = s + g + G.sum := by ring
      have e2 : k + (G.length + 1) = k + 1 + G.length := by ring
      rw [e1, e2]
      exact hde

theorem sum_bounds (G : List ℚ) (hG : ∀ g ∈ G, 0 ≤ g ∧ g ≤ 100) :
    0 ≤ G.sum ∧ G.sum ≤ 100 * G.length := by
  induction G with
  | nil => simp
  | cons g G ih =>
    obtain ⟨h1, h2⟩ := hG g (by simp)
    obtain ⟨h3, h4⟩ := ih fun x hx => hG x (List.mem_cons_of_mem _ hx)
    simp only [List.sum_cons, List.length_cons]
    push_cast
    constructor <;> linarith

/-- **C6 (amended).** For every non-empty sequence of at most 1000 grades in
[0, 100], whole or fractional, `averageGrade` is the text of a hundredth: the
digits of the whole part, a point and exactly two fractional digits, of a
value `N / 100` that differs from the arithmetic mean of the grades by at most
`0.005 + 2 ^ -36`: the mean rounded to two decimals, up to the rounding of the
floating-point sum and quotient. For whole-number grades (fewer than 2 ^ 32 of
them) the value differs from the mean by at most 0.005, so it is a hundredth
nearest to the mean. For the grades 80, 90, 100 it is `"90.00"`. -/
theorem calculateAverage_near (P : Platform) (G : List ℚ) (hne : G ≠ [])
    (hlen : G.length ≤ 1000) (hG : ∀ g ∈ G, 0 ≤ g ∧ g ≤ 100) :
    (∃ N : ℕ,
      calculateAverage P G =
        .text (decimalDigits (N / 100) ++ [46, 48 + N / 10 % 10, 48 + N % 10]) ∧
      |(N : ℚ) / 100 - G.sum / (G.length : ℚ)| ≤ 1 / 200 + 1 / 2 ^ 36) ∧
    (∀ W : List ℕ, W ≠ [] → W.length < 2 ^ 32 → (∀ w ∈ W, w ≤ 100) →
      ∃ N : ℕ,
        calculateAverage P (W.map (Nat.cast : ℕ → ℚ)) =
          .text (decimalDigits (N / 100) ++ [46, 48 + N / 10 % 10, 48 + N % 10]) ∧
        |(N : ℚ) / 100 - (W.sum : ℚ) / (W.length : ℚ)| ≤ 1 / 200) ∧
    calculateAverage P [80, 90, 100] = .text (js "90.00") := by
  refine ⟨?_, fun W h1 h2 h3 => (calculateAverage_whole P W h1 h2 h3).1,
    (calculateAverage_whole P [80, 90, 100] (by simp) (by simp) (by simp)).2⟩
  have hl0 : 0 < G.length := List.length_pos.mpr hne
  have hLq : (0 : ℚ) < (G.length : ℚ) := by exact_mod_cast hl0
  have hL1 : (1 : ℚ) ≤ (G.length : ℚ) := by exact_mod_cast hl0
  obtain ⟨hS0, hS100⟩ := sum_bounds G hG
  obtain ⟨D, hD, hD0, hDe⟩ := foldl_add_near G hG 0 0 0 (le_refl _) (by simp) (by simp)
    (by simpa using hlen)
  simp only [zero_add] at hDe
  obtain ⟨hD1, hD2⟩ := abs_le.mp hDe
  -- the quotient of the computed sum by the length
  have hq0 : 0 ≤ D / (G.length : ℚ) := by positivity
  have hqe : |D / (G.length : ℚ) - G.sum / (G.length : ℚ)| ≤ 1 / 2 ^ 37 := by
    rw [← sub_div, abs_div, abs_of_pos hLq, div_le_iff₀ hLq]
    calc |D - G.sum| ≤ (G.length : ℚ) / 2 ^ 37 := hDe
      _ = 1 / 2 ^ 37 * (G.length : ℚ) := by ring
  obtain ⟨hq1, hq2⟩ := abs_le.mp hqe
  have hm100 : G.sum / (G.length : ℚ) ≤ 100 := by
    rw [div_le_iff₀ hLq]
    exact hS100
  obtain ⟨d, hd, hd0, hdm⟩ := roundDouble_near (D / (G.length : ℚ)) hq0 (by
    have : (1 : ℚ) / 2 ^ 37 ≤ 1 := by norm_num
    linarith)
  obtain ⟨hd1, hd2⟩ := abs_le.mp hdm
  have hcalc : calculateAverage P G = .text (fixed2 ⌊d * 100 + 1 / 2⌋.toNat) := by
    unfold calculateAverage
    rw [if_neg (by omega)]
    simp only [hD]
    have hdiv : JSNumber.div (.fin D) (.fin (G.length : ℚ)) = .fin d := by
      show (if (G.length : ℚ) = 0 then _ else roundDouble _) = _
      rw [if_neg hLq.ne', hd]
    rw [hdiv]
    have hd21 : ¬ (1000000000000000000000 : ℚ) ≤ d := by
      rw [not_le]
      have : (1 : ℚ) / 2 ^ 37 ≤ 1 := by norm_num
      have : (1 : ℚ) / 2 ^ 47 ≤ 1 := by norm_num
      linarith
    simp only [toFixed2, not_lt.mpr hd0, if_false, if_neg hd21, List.nil_append,
      abs_of_nonneg hd0]
  refine ⟨⌊d * 100 + 1 / 2⌋.toNat, by rw [hcalc, fixed2_eq], ?_⟩
  have hfl0 : 0 ≤ ⌊d * 100 + 1 / 2⌋ := Int.floor_nonneg.mpr (by positivity)
  have hN : ((⌊d * 100 + 1 / 2⌋.toNat : ℕ) : ℚ) = (⌊d * 100 + 1 / 2⌋ : ℚ) := by
    have : ((⌊d * 100 + 1 / 2⌋.toNat : ℕ) : ℤ) = ⌊d * 100 + 1 / 2⌋ := Int.toNat_of_nonneg hfl0
    exact_mod_cast this
  rw [hN]
  have h1 : (⌊d * 100 + 1 / 2⌋ : ℚ) ≤ d * 100 + 1 / 2 := Int.floor_le _
  have h2 : d * 100 + 1 / 2 < (⌊d * 100 + 1 / 2⌋ : ℚ) + 1 := Int.lt_floor_add_one _
  have hsmall : (1 : ℚ) / 2 ^ 47 + 1 / 2 ^ 37 ≤ 1 / 2 ^ 36 := by norm_num
  rw [abs_le]
  constructor <;> linarith

theorem calculateAverage_near_witness :
    ([85, 181 / 2, 100] : List ℚ) ≠ [] ∧ ([85, 181 / 2, 100] : List ℚ).length ≤ 1000 ∧
    (∀ g ∈ ([85, 181 / 2, 100] : List ℚ), 0 ≤ g ∧ g ≤ 100) ∧
    ((∃ N : ℕ,
      calculateAverage asciiPlatform [85, 181 / 2, 100] =
        .text (decimalDigits (N / 100) ++ [46, 48 + N / 10 % 10, 48 + N % 10]) ∧
      |(N : ℚ) / 100 - ([85, 181 / 2, 100] : List ℚ).sum /
        (([85, 181 / 2, 100] : List ℚ).length : ℚ)| ≤ 1 / 200 + 1 / 2 ^ 36) ∧
    (∀ W : List ℕ, W ≠ [] → W.length < 2 ^ 32 → (∀ w ∈ W, w ≤ 100) →
      ∃ N : ℕ,
        calculateAverage asciiPlatform (W.map (Nat.cast : ℕ → ℚ)) =
          .text (decimalDigits (N / 100) ++ [46, 48 + N / 10 % 10, 48 + N % 10]) ∧
        |(N : ℚ) / 100 - (W.sum : ℚ) / (W.length : ℚ)| ≤ 1 / 200) ∧
    calculateAverage asciiPlatform [80, 90, 100] = .text (js "90.00")) :=
  have h : ∀ g ∈ ([85, 181 / 2, 100] : List ℚ), 0 ≤ g ∧ g ≤ 100 := by decide!
  ⟨by decide, by decide, h,
    calculateAverage_near asciiPlatform [85, 181 / 2, 100] (by decide) (by decide) h⟩

/-- **C6 as stated fails.** The grades 60 and 60.07 (the Number `parseFloat`
gives for `"60.07"`) lie in [0, 100]; their sum is rounded in binary floating
point, and `averageGrade` is `"60.03"`, although the mean of the two grades is
above 60.035: it is farther than 0.005 from 60.03 and within 0.005 of 60.04. -/
theorem average_counterexample :
    parseFloat (js "60.07") = .fin grade6007 ∧
    roundDouble grade6007 = .fin grade6007 ∧
    (0 ≤ grade6007 ∧ grade6007 ≤ 100) ∧
    calculateAverage asciiPlatform [60, grade6007] = .text (js "60.03") ∧
    ¬ |(6003 : ℚ) / 100 - (60 + grade6007) / 2| ≤ 1 / 200 ∧
    |(6004 : ℚ) / 100 - (60 + grade6007) / 2| ≤ 1 / 200 := by
  decide!

/-! ### Validation of the grades text -/

theorem validateLoop_cons (t : JSString) (rest : List JSString) :
    validateLoop (t :: rest) =
      if isNaN t = true ∨ t = [] then some (js "Оцінки повинні бути числами")
      else if (parseFloat t).lt (.fin 0) = true ∨ (JSNumber.fin 100).lt (parseFloat t) = true then
        some (js "Оцінки повинні бути від 0 до 100")
      else validateLoop rest := rfl

theorem validateLoop_none_iff (toks : List JSString) :
    validateLoop toks = none ↔ ∀ t ∈ toks, Accepted t := by
  induction toks with
  | nil => simp [validateLoop]
  | cons t rest ih =>
    rw [validateLoop_cons]
    simp only [List.mem_cons, forall_eq_or_imp]
    split_ifs with h1 h2
    · constructor
      · intro h; cases h
      · intro h; exact absurd h1 h.1.1
    · constructor
      · intro h; cases h
      · intro h; exact absurd h2 h.1.2
    · rw [ih]
      constructor
      · intro h; exact ⟨⟨h1, h2⟩, h⟩
      · intro h; exact h.2

theorem validateLoop_first (pre post : List JSString) (t : JSString)
    (hpre : ∀ u ∈ pre, Accepted u) :
    validateLoop (pre ++ t :: post) = validateLoop (t :: post) := by
  induction pre with
  | nil => rfl
  | cons u pre ih =>
    have hu := hpre u (by simp)
    rw [List.cons_append, validateLoop_cons, if_neg hu.1, if_neg hu.2]
    exact ih fun x hx => hpre x (List.mem_cons_of_mem _ hx)

/-- What `validateGrades` does, in terms of the two conversions the code uses.
An input whose trimmed text is empty is refused with the empty-input message.
Otherwise the tokens are the pieces `split(/\s+/)` gives for the trimmed text;
the input is accepted exactly when every token passes `isNaN` and has a
`parseFloat` in [0, 100], and then the grades are the `parseFloat` of the
tokens, in order; at the first token that does not, the message is the
non-numeric one when `isNaN` holds of it and the out-of-range one otherwise.
The three messages differ. -/
theorem validateGrades_cases (s : JSString) :
    (trim s = [] → validateGrades s = .invalid (js "Введіть оцінки")) ∧
    (trim s ≠ [] →
      (validateGrades s = .valid ((splitWhiteSpace (trim s)).map parseFloat) ↔
        ∀ t ∈ splitWhiteSpace (trim s), Accepted t) ∧
      (∀ grades, validateGrades s = .valid grades →
        grades = (splitWhiteSpace (trim s)).map parseFloat) ∧
      (∀ pre t post, splitWhiteSpace (trim s) = pre ++ t :: post →
        (∀ u ∈ pre, Accepted u) → ¬ Accepted t →
        validateGrades s =
          if isNaN t = true ∨ t = [] then .invalid (js "Оцінки повинні бути числами")
          else .invalid (js "Оцінки повинні бути від 0 до 100"))) ∧
    js "Введіть оцінки" ≠ js "Оцінки повинні бути числами" ∧
    js "Введіть оцінки" ≠ js "Оцінки повинні бути від 0 до 100" ∧
    js "Оцінки повинні бути числами" ≠ js "Оцінки повинні бути від 0 до 100" := by
  refine ⟨?_, ?_, by decide, by decide, by decide⟩
  · intro h
    simp [validateGrades, h]
  · intro h
    refine ⟨?_, ?_, ?_⟩
    · rw [← validateLoop_none_iff]
      simp only [validateGrades, if_neg h]
      cases hv : validateLoop (splitWhiteSpace (trim s)) <;> simp
    · intro grades hg
      simp only [validateGrades, if_neg h] at hg
      cases hv : validateLoop (splitWhiteSpace (trim s)) with
      | none => rw [hv] at hg; simpa using hg.symm
      | some m => rw [hv] at hg; simp at hg
    · intro pre t post hsplit hpre ht
      simp only [validateGrades, if_neg h, hsplit, validateLoop_first pre post t hpre,
        validateLoop_cons]
      split_ifs with h1 h2
      · rfl
      · rfl
      · exact absurd ⟨h1, h2⟩ ht

/-- **C7: the code departs from the claim.** The token `0x1F4` is the number
500 for `isNaN` (`Number("0x1F4")`), which is outside [0, 100], yet
`validateGrades` accepts it, with the grade 0 that `parseFloat` reads from its
first character; `0x10`, the number 16, is accepted with the grade 0 as well.
The three examples of the claim are refused with three different messages. -/
theorem validateGrades_hex :
    stringToNumber (js "0x1F4") = .fin 500 ∧
    validateGrades (js "0x1F4") = .valid [.fin 0] ∧
    stringToNumber (js "0x10") = .fin 16 ∧
    validateGrades (js "0x10") = .valid [.fin 0] ∧
    validateGrades (js "") = .invalid (js "Введіть оцінки") ∧
    validateGrades (js "85 abc 90") = .invalid (js "Оцінки повинні бути числами") ∧
    validateGrades (js "85 150") = .invalid (js "Оцінки повинні бути від 0 до 100") ∧
    validateGrades (js "85 90.5 100") = .valid [.fin 85, .fin (181 / 2), .fin 100] := by
  decide!


/-! ### Sorting by several fields -/

/-- **C8 as stated fails.** Given the list `["group", "firstName"]`,
`sortStudents` orders two students of one group by first name; given `"group"`
alone it leaves them in roster order. -/
theorem sortStudents_list_counterexample :
    StudentGroup.sortStudents asciiPlatform ⟨[groupA 1 "Bob", groupA 2 "Ann"]⟩
        (.list [js "group", js "firstName"]) (js "asc") = [groupA 2 "Ann", groupA 1 "Bob"] ∧
    StudentGroup.sortStudents asciiPlatform ⟨[groupA 1 "Bob", groupA 2 "Ann"]⟩
        (.single (js "group")) (js "asc") = [groupA 1 "Bob", groupA 2 "Ann"] := by
  decide!

/-- **C8 (amended).** `displayStudents`, for a selection of sort fields that
does not hold both `lastName` and `firstName`, shows the roster as
`sortStudents(first selected field, direction)` returns it: only the first
selected field influences the order. `sortStudents` itself compares by every
field of a list in turn: a list of one field gives the sequence the field
alone gives, and in a longer list a later field decides between two records
exactly when all fields before it tie. -/
theorem displaySort_first_field (P : Platform) (g : StudentGroup) (first : JSString)
    (rest : List JSString) (direction : JSString) (students : List Student)
    (hdir : direction ≠ [])
    (hsel : ¬ (js "lastName" ∈ first :: rest ∧ js "firstName" ∈ first :: rest)) :
    displaySort P g (first :: rest) (some direction) students =
      g.sortStudents P (.single first) direction ∧
    g.sortStudents P (.list [first]) direction = g.sortStudents P (.single first) direction ∧
    (∀ a b : Student,
      compareStudents P (.list (first :: rest)) direction a b =
        if compareStudents P (.single first) direction a b ≠ 0 then
          compareStudents P (.single first) direction a b
        else compareStudents P (.list rest) direction a b) := by
  refine ⟨?_, ?_, fun a b => rfl⟩
  · simp only [displaySort, if_neg hdir, if_neg hsel, ite_self]
  · unfold StudentGroup.sortStudents
    congr 1
    funext a b
    simp only [compareStudents, compareList]
    split_ifs with h
    · rfl
    · exact (not_not.mp h).symm

theorem displaySort_first_field_witness :
    js "asc" ≠ [] ∧
    ¬ (js "lastName" ∈ [js "group", js "firstName"] ∧
        js "firstName" ∈ [js "group", js "firstName"]) ∧
    displaySort asciiPlatform ⟨[groupA 1 "Bob", groupA 2 "Ann"]⟩ [js "group", js "firstName"]
        (some (js "asc")) [groupA 1 "Bob", groupA 2 "Ann"] =
      StudentGroup.sortStudents asciiPlatform ⟨[groupA 1 "Bob", groupA 2 "Ann"]⟩
        (.single (js "group")) (js "asc") :=
  ⟨by decide, by decide,
    (displaySort_first_field asciiPlatform ⟨[groupA 1 "Bob", groupA 2 "Ann"]⟩ (js "group")
      [js "firstName"] (js "asc") [groupA 1 "Bob", groupA 2 "Ann"] (by decide) (by decide)).1⟩


/-! ### Sorting by the average -/

theorem lt_iff_rank (x y : JSNumber) (hx : x ≠ .nan) (hy : y ≠ .nan) :
    x.lt y = true ↔ rank x < rank y := by
  cases x <;> cases y <;> simp_all [JSNumber.lt, rank, Prod.Lex.lt_iff]

theorem le_iff_rank (x y : JSNumber) (hx : x ≠ .nan) (hy : y ≠ .nan) :
    x.le y = true ↔ rank x ≤ rank y := by
  cases x <;> cases y <;> simp_all [JSNumber.le, JSNumber.lt, rank, Prod.Lex.le_iff, Prod.Lex.lt_iff, le_iff_lt_or_eq]

theorem roundDouble_ne_nan (q : ℚ) : roundDouble q ≠ .nan := by
  unfold roundDouble
  dsimp only
  split_ifs <;> simp

theorem add_fin_ne_nan (x : JSNumber) (g : ℚ) (hx : x ≠ .nan) : x.add (.fin g) ≠ .nan := by
  cases x with
  | nan => exact absurd rfl hx
  | negInf => simp [JSNumber.add]
  | posInf => simp [JSNumber.add]
  | fin a => exact roundDouble_ne_nan _

theorem foldl_add_ne_nan (grades : List ℚ) (x : JSNumber) (hx : x ≠ .nan) :
    grades.foldl (fun acc grade => JSNumber.add acc (.fin grade)) x ≠ .nan := by
  induction grades generalizing x with
  | nil => simpa
  | cons g grades ih => exact ih _ (add_fin_ne_nan x g hx)

theorem div_fin_ne_nan (x : JSNumber) (n : ℚ) (hx : x ≠ .nan) (hn : n ≠ 0) :
    x.div (.fin n) ≠ .nan := by
  cases x with
  | nan => exact absurd rfl hx
  | negInf => simp only [JSNumber.div]; split_ifs <;> simp
  | posInf => simp only [JSNumber.div]; split_ifs <;> simp
  | fin a =>
    simp only [JSNumber.div, if_neg hn]
    exact roundDouble_ne_nan _

theorem isDigit_iff (c : ℕ) : isDigit c = true ↔ 48 ≤ c ∧ c ≤ 57 := by
  simp [isDigit]

theorem scanUnsigned_digit (c : ℕ) (rest : JSString) (hc : isDigit c = true) :
    ∃ q r, scanUnsigned (c :: rest) = some (some q, r) := by
  have hc' := (isDigit_iff c).mp hc
  unfold scanUnsigned
  have hI : (js "Infinity").isPrefixOf (c :: rest) = false := by
    have : js "Infinity" = 73 :: js "nfinity" := by decide
    rw [this]
    simp [List.isPrefixOf]
    omega
  rw [if_neg (by simp [hI])]
  have hip : (c :: rest).takeWhile isDigit ≠ [] := by
    simp [List.takeWhile, hc]
  simp only [hip, false_and, if_false]
  split
  · exact ⟨_, _, rfl⟩
  · split_ifs
    · exact ⟨_, _, rfl⟩
    · exact ⟨_, _, rfl⟩

theorem parseFloat_digit (c : ℕ) (rest : JSString) (hc : isDigit c = true) :
    parseFloat (c :: rest) ≠ .nan ∧ parseFloat (45 :: c :: rest) ≠ .nan := by
  have hc' := (isDigit_iff c).mp hc
  obtain ⟨q, r, h⟩ := scanUnsigned_digit c rest hc
  have hws : isWhiteSpace c = false := by
    simp [isWhiteSpace]
    omega
  constructor
  · unfold parseFloat
    have e : (c :: rest).dropWhile isWhiteSpace = c :: rest := by
      simp [List.dropWhile, hws]
    rw [e]
    unfold scanDecimal
    have h43 : c ≠ 43 := by omega
    have h45 : c ≠ 45 := by omega
    simp only [if_neg h43, if_neg h45, h]
    exact roundDouble_ne_nan _
  · unfold parseFloat
    have e : (45 :: c :: rest).dropWhile isWhiteSpace = 45 :: c :: rest := by
      simp [List.dropWhile, isWhiteSpace]
    rw [e]
    unfold scanDecimal
    simp only [show (45 : ℕ) ≠ 43 by decide, if_false, if_true, h]
    exact roundDouble_ne_nan _

theorem decimalDigits_head (n : ℕ) : ∃ c rest, decimalDigits n = c :: rest ∧ isDigit c = true := by
  induction n using Nat.strong_induction_on with
  | _ n ih =>
    by_cases h : n < 10
    · refine ⟨48 + n, [], decimalDigits_lt n h, ?_⟩
      rw [isDigit_iff]; omega
    · obtain ⟨c, rest, h1, h2⟩ := ih (n / 10) (by omega)
      exact ⟨c, rest ++ [48 + n % 10], by rw [decimalDigits_ge n (by omega), h1]; rfl, h2⟩

theorem parseFloat_toFixed2 (P : Platform) (hP : DigitLed P) (x : JSNumber) (hx : x ≠ .nan) :
    parseFloat (toFixed2 P x) ≠ .nan := by
  cases x with
  | nan => exact absurd rfl hx
  | negInf => simp only [toFixed2]; decide
  | posInf => simp only [toFixed2]; decide
  | fin q =>
    have key : ∃ c rest, (if (1000000000000000000000 : ℚ) ≤ |q| then P.numberToString |q|
        else fixed2 ⌊|q| * 100 + 1 / 2⌋.toNat) = c :: rest ∧ isDigit c = true := by
      split_ifs with h
      · exact hP _ h
      · rw [fixed2_eq]
        obtain ⟨c, rest, h1, h2⟩ := decimalDigits_head (⌊|q| * 100 + 1 / 2⌋.toNat / 100)
        exact ⟨c, rest ++ _, by rw [h1]; rfl, h2⟩
    obtain ⟨c, rest, h1, h2⟩ := key
    simp only [toFixed2, h1]
    split_ifs
    · exact (parseFloat_digit c rest h2).2
    · exact (parseFloat_digit c rest h2).1

theorem parseFloat_calculateAverage (P : Platform) (hP : DigitLed P) (grades : List ℚ) :
    (calculateAverage P grades).parseFloat ≠ .nan := by
  unfold calculateAverage
  split_ifs with h
  · simp [Average.parseFloat]
  · simp only [Average.parseFloat]
    apply parseFloat_toFixed2 P hP
    apply div_fin_ne_nan
    · exact foldl_add_ne_nan _ _ (by simp)
    · exact_mod_cast h

theorem compareOn_averageGrade_neg (P : Platform) (direction : JSString)
    (hdir : direction ≠ js "asc") (a b : Student)
    (ha : a.averageGrade.parseFloat ≠ .nan) (hb : b.averageGrade.parseFloat ≠ .nan) :
    compareOn P direction (js "averageGrade") a b < 0 ↔
      rank b.averageGrade.parseFloat < rank a.averageGrade.parseFloat := by
  have e : ∀ s : Student, sortValue P (js "averageGrade") s = .num s.averageGrade.parseFloat :=
    fun s => by simp [sortValue]
  simp only [compareOn, e, SortKey.lt, if_neg hdir]
  split_ifs with h1 h2
  · have := (lt_iff_rank _ _ ha hb).mp h1
    simp [not_lt_of_lt this]
  · have := (lt_iff_rank _ _ hb ha).mp h2
    simp [this]
  · have : ¬ rank b.averageGrade.parseFloat < rank a.averageGrade.parseFloat :=
      fun h => h2 ((lt_iff_rank _ _ hb ha).mpr h)
    simp [this]

/-- **C10.** For every roster whose records carry the `averageGrade` that
`calculateAverage` gives for their grades, `sortStudents("averageGrade", d)`
with a direction `d` other than `"asc"` (descending) returns a permutation of
the roster in which the numbers `parseFloat(averageGrade)` never increase: for
`a` before `b`, that of `b` is `<=` that of `a` as numbers. A record with
average `"80.00"` is placed before one with average `"9.50"`. (The platform is
one whose `Number::toString` starts the text of a number from `10 ^ 21` on with
a digit.) -/
theorem sortStudents_averageGrade (P : Platform) (hP : DigitLed P) (g : StudentGroup)
    (direction : JSString) (hdir : direction ≠ js "asc")
    (hg : ∀ s ∈ g.students, s.averageGrade = calculateAverage P s.grades) :
    (g.sortStudents P (.single (js "averageGrade")) direction).Perm g.students ∧
    (g.sortStudents P (.single (js "averageGrade")) direction).Pairwise
      (fun a b => b.averageGrade.parseFloat.le a.averageGrade.parseFloat = true) ∧
    (∀ a b : Student, a.averageGrade = .text (js "9.50") →
      b.averageGrade = .text (js "80.00") →
      StudentGroup.sortStudents P ⟨[a, b]⟩ (.single (js "averageGrade")) direction = [b, a]) := by
  have hnan : ∀ s ∈ g.students, s.averageGrade.parseFloat ≠ .nan := by
    intro s hs
    rw [hg s hs]
    exact parseFloat_calculateAverage P hP _
  refine ⟨arraySort_perm _ _, ?_, ?_⟩
  · have h := arraySort_pairwise (compareStudents P (.single (js "averageGrade")) direction)
      (fun s : Student => OrderDual.toDual (rank s.averageGrade.parseFloat)) g.students ?_
    · have hmem : ∀ s ∈ g.sortStudents P (.single (js "averageGrade")) direction,
          s ∈ g.students := fun s hs => (arraySort_perm _ _).mem_iff.mp hs
      refine (List.Pairwise.and_mem.mp h).imp ?_
      intro a b hab
      obtain ⟨ha, hb, hab⟩ := hab
      rw [le_iff_rank _ _ (hnan b (hmem b hb)) (hnan a (hmem a ha))]
      exact hab
    · intro a ha b hb
      show compareOn P direction (js "averageGrade") a b < 0 ↔ _
      rw [compareOn_averageGrade_neg P direction hdir a b (hnan a ha) (hnan b hb),
        OrderDual.toDual_lt_toDual]
  · intro a b ha hb
    have h : compareStudents P (.single (js "averageGrade")) direction b a < 0 := by
      show compareOn P direction (js "averageGrade") b a < 0
      rw [compareOn_averageGrade_neg P direction hdir b a (by rw [hb]; decide!)
        (by rw [ha]; decide!), ha, hb]
      decide!
    simp [StudentGroup.sortStudents, arraySort, takeRun, h]


theorem asciiPlatform_digitLed : DigitLed asciiPlatform :=
  fun q _ => decimalDigits_head ⌊|q|⌋.toNat

theorem sortStudents_averageGrade_witness :
    DigitLed asciiPlatform ∧ js "desc" ≠ js "asc" ∧
    (∀ s ∈ twoAverages.students, s.averageGrade = calculateAverage asciiPlatform s.grades) ∧
    ((twoAverages.sortStudents asciiPlatform (.single (js "averageGrade")) (js "desc")).Perm
        twoAverages.students ∧
      (twoAverages.sortStudents asciiPlatform (.single (js "averageGrade")) (js "desc")).Pairwise
        (fun a b => b.averageGrade.parseFloat.le a.averageGrade.parseFloat = true) ∧
      (∀ a b : Student, a.averageGrade = .text (js "9.50") →
        b.averageGrade = .text (js "80.00") →
        StudentGroup.sortStudents asciiPlatform ⟨[a, b]⟩ (.single (js "averageGrade"))
          (js "desc") = [b, a])) :=
  have h1 : js "desc" ≠ js "asc" := by decide
  have h2 : ∀ s ∈ twoAverages.students,
      s.averageGrade = calculateAverage asciiPlatform s.grades := by
    intro s hs
    simp only [twoAverages, List.mem_cons, List.mem_singleton, List.not_mem_nil, or_false] at hs
    rcases hs with rfl | rfl <;> rfl
  ⟨asciiPlatform_digitLed, h1, h2,
    sortStudents_averageGrade asciiPlatform asciiPlatform_digitLed twoAverages (js "desc") h1 h2⟩

/-! ### Stability of the sort -/

theorem yearPlatform_examples :
    yearPlatform.dateParse (js "2003") = .fin 1041379200000 ∧
    yearPlatform.dateParse (js "2000") = .fin 946684800000 ∧
    yearPlatform.dateParse (js "1970") = .fin 0 ∧
    yearPlatform.dateParse (js "not a date") = .nan := by
  decide!

theorem cons_lt_cons_iff {K : Type} [LinearOrder K] (x y : K) (l l2 : List K) :
    x :: l < y :: l2 ↔ x < y ∨ x = y ∧ l < l2 := by
  constructor
  · intro h
    cases h with
    | cons h => exact Or.inr ⟨rfl, h⟩
    | rel h => exact Or.inl h
  · rintro (h | ⟨rfl, h⟩)
    · exact List.Lex.rel h
    · exact List.Lex.cons h

theorem place_lt_iff (P : Platform) (f : JSString) (a b : Student)
    (ha : sortValue P f a ≠ .num .nan) (hb : sortValue P f b ≠ .num .nan) :
    (sortValue P f a).lt (sortValue P f b) = true ↔
      (sortValue P f a).place < (sortValue P f b).place := by
  unfold sortValue at *
  split_ifs at * with h1 h2
  · have ha2 : a.averageGrade.parseFloat ≠ .nan := fun h => ha (by rw [h])
    have hb2 : b.averageGrade.parseFloat ≠ .nan := fun h => hb (by rw [h])
    simp only [SortKey.lt, SortKey.place, lt_iff_rank _ _ ha2 hb2, Prod.Lex.lt_iff]
    simp
  · have ha2 : P.dateParse a.birthDate ≠ .nan := fun h => ha (by rw [h])
    have hb2 : P.dateParse b.birthDate ≠ .nan := fun h => hb (by rw [h])
    simp only [SortKey.lt, SortKey.place, lt_iff_rank _ _ ha2 hb2, Prod.Lex.lt_iff]
    simp
  · simp only [SortKey.lt, SortKey.place, Prod.Lex.lt_iff]
    simp

theorem compareOn_place (P : Platform) (direction f : JSString) (a b : Student)
    (ha : sortValue P f a ≠ .num .nan) (hb : sortValue P f b ≠ .num .nan) :
    compareOn P direction f a b =
      if (sortValue P f a).place < (sortValue P f b).place then
        (if direction = js "asc" then -1 else 1)
      else if (sortValue P f b).place < (sortValue P f a).place then
        (if direction = js "asc" then 1 else -1)
      else 0 := by
  have h1 := place_lt_iff P f a b ha hb
  have h2 := place_lt_iff P f b a hb ha
  unfold compareOn
  simp only [h1, h2]

theorem compareList_neg_iff {K : Type} [LinearOrder K] (P : Platform) (direction : JSString)
    (a b : Student) (k : JSString → Student → K) (fields : List JSString)
    (hlt : ∀ f ∈ fields, (compareOn P direction f a b < 0 ↔ k f a < k f b))
    (heq : ∀ f ∈ fields, (compareOn P direction f a b = 0 ↔ k f a = k f b)) :
    compareList P direction a b fields < 0 ↔
      fields.map (fun f => k f a) < fields.map (fun f => k f b) := by
  induction fields with
  | nil => simp [compareList]
  | cons f rest ih =>
    have ih2 := ih (fun x hx => hlt x (List.mem_cons_of_mem _ hx))
      (fun x hx => heq x (List.mem_cons_of_mem _ hx))
    have h1 := hlt f (List.mem_cons_self _ _)
    have h2 := heq f (List.mem_cons_self _ _)
    simp only [compareList, List.map_cons, cons_lt_cons_iff]
    split_ifs with h
    · rw [h1]
      constructor
      · exact Or.inl
      · rintro (h3 | ⟨h3, _⟩)
        · exact h3
        · exact absurd (h2.mpr h3) h
    · have h3 : k f a = k f b := h2.mp (not_not.mp h)
      rw [ih2]
      constructor
      · exact fun h4 => Or.inr ⟨h3, h4⟩
      · rintro (h4 | ⟨_, h4⟩)
        · exact absurd h4 (by rw [h3]; exact lt_irrefl _)
        · exact h4

theorem compareStudents_neg_iff {K : Type} [LinearOrder K] (P : Platform) (fields : SortFields)
    (direction : JSString) (a b : Student) (k : JSString → Student → K)
    (hlt : ∀ f ∈ fields.names, (compareOn P direction f a b < 0 ↔ k f a < k f b))
    (heq : ∀ f ∈ fields.names, (compareOn P direction f a b = 0 ↔ k f a = k f b)) :
    compareStudents P fields direction a b < 0 ↔
      fields.names.map (fun f => k f a) < fields.names.map (fun f => k f b) := by
  cases fields with
  | list fs => exact compareList_neg_iff P direction a b k fs hlt heq
  | single f =>
    have h1 := hlt f (by simp [SortFields.names])
    simp only [compareStudents, SortFields.names, List.map_cons, List.map_nil, cons_lt_cons_iff,
      h1]
    constructor
    · exact Or.inl
    · rintro (h | ⟨_, h⟩)
      · exact h
      · exact absurd h (lt_irrefl _)

theorem place_eq_of_tied (P : Platform) (f : JSString) (a b : Student)
    (ha : sortValue P f a ≠ .num .nan) (hb : sortValue P f b ≠ .num .nan)
    (h : TiedOn P f a b) : (sortValue P f a).place = (sortValue P f b).place := by
  have h1 := place_lt_iff P f a b ha hb
  have h2 := place_lt_iff P f b a hb ha
  rw [h.1] at h1
  rw [h.2] at h2
  exact le_antisymm (not_lt.mp fun h3 => by simpa using h2.mpr h3)
    (not_lt.mp fun h3 => by simpa using h1.mpr h3)

/-- **C9 (amended).** `sortStudents` is stable, for every field or list of
fields and every direction, on a roster none of whose converted sort keys is
`NaN` (every `birthDate` a valid date when dates are sorted by, every
`averageGrade` the text of a number when averages are): when two records tie on
every sort key and the first comes before the second in the roster, it comes
before it in the returned sequence too. -/
theorem sortStudents_stable (P : Platform) (g : StudentGroup) (fields : SortFields)
    (direction : JSString) (a b : Student)
    (hnan : ∀ f ∈ fields.names, ∀ s ∈ g.students, sortValue P f s ≠ .num .nan)
    (htie : ∀ f ∈ fields.names, TiedOn P f a b)
    (hab : [a, b].Sublist g.students) :
    [a, b].Sublist (g.sortStudents P fields direction) := by
  have hamem : a ∈ g.students := hab.subset (by simp)
  have hbmem : b ∈ g.students := hab.subset (by simp)
  by_cases hdir : direction = js "asc"
  · refine arraySort_stable _
      (fun s : Student => fields.names.map fun f => (sortValue P f s).place) g.students ?_ a b ?_
      hab
    · intro x hx y hy
      apply compareStudents_neg_iff P fields direction x y fun f s => (sortValue P f s).place
      · intro f hf
        rw [compareOn_place P direction f x y (hnan f hf x hx) (hnan f hf y hy)]
        simp only [hdir, if_true]
        split_ifs with h1 h2
        · simp [h1]
        · simp [h1]
        · simp [h1]
      · intro f hf
        rw [compareOn_place P direction f x y (hnan f hf x hx) (hnan f hf y hy)]
        simp only [hdir, if_true]
        split_ifs with h1 h2
        · simp [ne_of_lt h1]
        · simp [ne_of_gt h2]
        · simp [le_antisymm (not_lt.mp h2) (not_lt.mp h1)]
    · apply List.map_congr_left
      intro f hf
      exact place_eq_of_tied P f a b (hnan f hf a hamem) (hnan f hf b hbmem) (htie f hf)
  · refine arraySort_stable _
      (fun s : Student => fields.names.map fun f => OrderDual.toDual (sortValue P f s).place)
      g.students ?_ a b ?_ hab
    · intro x hx y hy
      apply compareStudents_neg_iff P fields direction x y
        fun f s => OrderDual.toDual (sortValue P f s).place
      · intro f hf
        rw [compareOn_place P direction f x y (hnan f hf x hx) (hnan f hf y hy)]
        simp only [hdir, if_false, OrderDual.toDual_lt_toDual]
        split_ifs with h1 h2
        · simp [not_lt_of_lt h1]
        · simp [h2]
        · simp [h2]
      · intro f hf
        rw [compareOn_place P direction f x y (hnan f hf x hx) (hnan f hf y hy)]
        simp only [hdir, if_false, EmbeddingLike.apply_eq_iff_eq]
        split_ifs with h1 h2
        · simp [ne_of_lt h1]
        · simp [ne_of_gt h2]
        · simp [le_antisymm (not_lt.mp h2) (not_lt.mp h1)]
    · apply List.map_congr_left
      intro f hf
      rw [place_eq_of_tied P f a b (hnan f hf a hamem) (hnan f hf b hbmem) (htie f hf)]

theorem sortStudents_stable_witness :
    (∀ f ∈ (SortFields.list [js "birthDate", js "group"]).names,
      ∀ s ∈ (StudentGroup.mk [born 1 "2003", born 2 "2000", born 3 "2001", born 4 "2000"]).students,
        sortValue yearPlatform f s ≠ .num .nan) ∧
    (∀ f ∈ (SortFields.list [js "birthDate", js "group"]).names,
      TiedOn yearPlatform f (born 2 "2000") (born 4 "2000")) ∧
    [born 2 "2000", born 4 "2000"].Sublist
      (StudentGroup.mk [born 1 "2003", born 2 "2000", born 3 "2001", born 4 "2000"]).students ∧
    [born 2 "2000", born 4 "2000"].Sublist
      (StudentGroup.sortStudents yearPlatform
        ⟨[born 1 "2003", born 2 "2000", born 3 "2001", born 4 "2000"]⟩
        (.list [js "birthDate", js "group"]) (js "desc")) :=
  have h0 : ∀ f ∈ (SortFields.list [js "birthDate", js "group"]).names,
      ∀ s ∈ (StudentGroup.mk [born 1 "2003", born 2 "2000", born 3 "2001", born 4 "2000"]).students,
        sortValue yearPlatform f s ≠ .num .nan := by
    decide!
  have h1 : ∀ f ∈ (SortFields.list [js "birthDate", js "group"]).names,
      TiedOn yearPlatform f (born 2 "2000") (born 4 "2000") := by
    unfold TiedOn
    decide!
  have h2 : [born 2 "2000", born 4 "2000"].Sublist
      (StudentGroup.mk [born 1 "2003", born 2 "2000", born 3 "2001", born 4 "2000"]).students := by
    decide!
  ⟨h0, h1, h2, sortStudents_stable yearPlatform _ _ (js "desc") _ _ h0 h1 h2⟩

/-- **C9 as stated fails.** On a roster with the dates of birth `2003`, `2002`,
`not a date`, `2000`, in this order, `sortStudents("birthDate", "asc")` returns
the records in the order 4, 2, 1, 3: the third record, whose date is invalid,
and the fourth tie (an invalid date is neither before nor after any date), the
third comes first in the roster, and the fourth comes first in the result. -/
theorem sortStudents_stable_counterexample :
    (StudentGroup.sortStudents yearPlatform
        ⟨[born 1 "2003", born 2 "2002", born 3 "not a date", born 4 "2000"]⟩
        (.single (js "birthDate")) (js "asc")).map Student.id = [4, 2, 1, 3] ∧
    (∀ f ∈ (SortFields.single (js "birthDate")).names,
      TiedOn yearPlatform f (born 3 "not a date") (born 4 "2000")) ∧
    [born 3 "not a date", born 4 "2000"].Sublist
      (StudentGroup.mk
        [born 1 "2003", born 2 "2002", born 3 "not a date", born 4 "2000"]).students ∧
    ¬ [born 3 "not a date", born 4 "2000"].Sublist
      (StudentGroup.sortStudents yearPlatform
        ⟨[born 1 "2003", born 2 "2002", born 3 "not a date", born 4 "2000"]⟩
        (.single (js "birthDate")) (js "asc")) := by
  unfold TiedOn
  decide!

/-! ### Removing and updating students -/

/-- **C11.** After `deleteStudent(id)` the roster is the previous roster
without the records whose id is `id`: no remaining record has that id, every
record with another id is still there as it was, as many times as before and
in the same relative order, and when no record has the id the roster is
unchanged; the call is total (no error), and the slot holds the new roster. -/
theorem deleteStudent_spec (g : StudentGroup) (id : ℚ) :
    (g.deleteStudent id).1.students = g.students.filter (fun s => decide (s.id ≠ id)) ∧
    (∀ s ∈ (g.deleteStudent id).1.students, s.id ≠ id) ∧
    (∀ s : Student, s.id ≠ id →
      (s ∈ (g.deleteStudent id).1.students ↔ s ∈ g.students) ∧
      (g.deleteStudent id).1.students.count s = g.students.count s) ∧
    (g.deleteStudent id).1.students.Sublist g.students ∧
    ((∀ s ∈ g.students, s.id ≠ id) → (g.deleteStudent id).1.students = g.students) ∧
    (g.deleteStudent id).2 = some ((g.deleteStudent id).1.students.map Student.toStored) := by
  refine ⟨rfl, ?_, ?_, ?_, ?_, rfl⟩
  · intro s hs
    simpa using (List.mem_filter.mp hs).2
  · intro s hs
    constructor
    · simp [StudentGroup.deleteStudent, List.mem_filter, hs]
    · simp only [StudentGroup.deleteStudent]
      rw [List.count_filter]
      simpa using hs
  · exact List.filter_sublist _
  · intro h
    simp only [StudentGroup.deleteStudent]
    rw [List.filter_eq_self]
    intro s hs
    simpa using h s hs

theorem findIndex_eq_none {α : Type} (p : α → Bool) (l : List α) (h : ∀ x ∈ l, p x = false) :
    findIndex p l = none := by
  induction l with
  | nil => rfl
  | cons x xs ih =>
    simp only [findIndex, h x (by simp), Bool.false_eq_true, if_false,
      ih (fun y hy => h y (List.mem_cons_of_mem _ hy)), Option.map_none']

/-- **C12.** `updateStudent(id, fields)` with an id that no record of the
roster carries raises no error and changes nothing: the roster is the same
list of the same records, and the slot is left as it was. -/
theorem updateStudent_absent (P : Platform) (g : StudentGroup) (storage : LocalStorage)
    (id : ℚ) (updatedData : UpdatedData) (h : ∀ s ∈ g.students, s.id ≠ id) :
    g.updateStudent P storage id updatedData = (g, storage) ∧
    (g.updateStudent P storage id updatedData).1.students = g.students := by
  have e : findIndex (fun student : Student => decide (student.id = id)) g.students = none :=
    findIndex_eq_none _ _ (fun s hs => by simpa using h s hs)
  simp [StudentGroup.updateStudent, e]

theorem updateStudent_absent_witness :
    (∀ s ∈ (StudentGroup.mk [groupA 1 "Bob", groupA 2 "Ann"]).students, s.id ≠ 3) ∧
    (StudentGroup.updateStudent asciiPlatform ⟨[groupA 1 "Bob", groupA 2 "Ann"]⟩ none 3
        { lastName := some (js "Jones"), grades := some [70] } =
      (⟨[groupA 1 "Bob", groupA 2 "Ann"]⟩, none) ∧
    (StudentGroup.updateStudent asciiPlatform ⟨[groupA 1 "Bob", groupA 2 "Ann"]⟩ none 3
        { lastName := some (js "Jones"), grades := some [70] }).1.students =
      (StudentGroup.mk [groupA 1 "Bob", groupA 2 "Ann"]).students) :=
  have h : ∀ s ∈ (StudentGroup.mk [groupA 1 "Bob", groupA 2 "Ann"]).students, s.id ≠ 3 := by
    decide!
  ⟨h, updateStudent_absent asciiPlatform _ none 3 _ h⟩


/-! ### The average follows the grades -/

theorem construct_consistent (P : Platform) (student : Student)
    (h : BuiltByConstructor P student) : Consistent P student := by
  obtain ⟨id, ln, fn, mn, ph, em, bd, gr, ad, ed, grades, rfl⟩ := h
  rfl

theorem create_consistent (P : Platform) (storage : LocalStorage) :
    ∀ s ∈ (StudentGroup.create P storage).students, Consistent P s := by
  intro s hs
  cases storage with
  | none => simp [StudentGroup.create, StudentGroup.loadFromStorage] at hs
  | some data =>
    simp only [StudentGroup.create, StudentGroup.loadFromStorage, List.mem_map] at hs
    obtain ⟨d, _, rfl⟩ := hs
    rfl

theorem update_consistent (P : Platform) (student : Student) (updatedData : UpdatedData)
    (hs : Consistent P student)
    (hu : updatedData.averageGrade.isSome = true → updatedData.grades.isSome = true) :
    Consistent P (student.update P updatedData) := by
  unfold Student.update
  by_cases hg : updatedData.grades.isSome = true
  · simp only [hg, if_true]
    rfl
  · have ha : updatedData.averageGrade = none := by
      cases h : updatedData.averageGrade with
      | none => rfl
      | some a => exact absurd (hu (by simp [h])) hg
    have hg2 : updatedData.grades = none := by
      cases h : updatedData.grades with
      | none => rfl
      | some a => exact absurd (by simp [h]) hg
    simp only [hg, if_false, Bool.false_eq_true]
    simp only [Consistent, Student.assign, ha, hg2, Option.getD_none]
    exact hs

theorem update_grades (P : Platform) (student : Student) (updatedData : UpdatedData)
    (newGrades : List ℚ) (h : updatedData.grades = some newGrades) :
    (student.update P updatedData).grades = newGrades ∧
    (student.update P updatedData).averageGrade = calculateAverage P newGrades := by
  simp [Student.update, Student.assign, h]

theorem mem_modify {α : Type} (f : α → α) (l : List α) (i : ℕ) (x : α)
    (h : x ∈ l.modify f i) : x ∈ l ∨ ∃ y ∈ l, x = f y := by
  induction l generalizing i with
  | nil => simp at h
  | cons a l ih =>
    cases i with
    | zero =>
      simp only [List.modify_zero_cons, List.mem_cons] at h
      rcases h with rfl | h
      · exact Or.inr ⟨a, by simp, rfl⟩
      · exact Or.inl (List.mem_cons_of_mem _ h)
    | succ i =>
      simp only [List.modify_succ_cons, List.mem_cons] at h
      rcases h with rfl | h
      · exact Or.inl (by simp)
      · rcases ih i h with h | ⟨y, hy, rfl⟩
        · exact Or.inl (List.mem_cons_of_mem _ h)
        · exact Or.inr ⟨y, List.mem_cons_of_mem _ hy, rfl⟩

theorem getElem?_modify_findIndex {α : Type} (p : α → Bool) (f : α → α) (l : List α) (i : ℕ)
    (h : findIndex p l = some i) :
    ∃ y, l[i]? = some y ∧ p y = true ∧ (∀ j, j < i → ∀ z, l[j]? = some z → p z = false) ∧
      (l.modify f i)[i]? = some (f y) := by
  induction l generalizing i with
  | nil => simp [findIndex] at h
  | cons a l ih =>
    simp only [findIndex] at h
    by_cases ha : p a = true
    · simp only [ha, if_true, Option.some.injEq] at h
      subst h
      exact ⟨a, by simp, ha, by simp, by simp⟩
    · simp only [ha, if_false, Bool.false_eq_true, Option.map_eq_some'] at h
      obtain ⟨k, hk, rfl⟩ := h
      obtain ⟨y, h1, h2, h3, h4⟩ := ih k hk
      refine ⟨y, by simpa using h1, h2, ?_, by simpa using h4⟩
      intro j hj z hz
      cases j with
      | zero =>
        simp only [List.getElem?_cons_zero, Option.some.injEq] at hz
        subst hz
        simpa using ha
      | succ j =>
        simp only [List.getElem?_cons_succ] at hz
        exact h3 j (by omega) z hz

theorem apply_consistent (P : Platform) (state : StudentGroup × LocalStorage) (call : Operation)
    (hs : ∀ s ∈ state.1.students, Consistent P s) (hc : call.Regular P) :
    ∀ s ∈ (call.apply P state).1.students, Consistent P s := by
  cases call with
  | addStudent student =>
    intro s h
    simp only [Operation.apply, StudentGroup.addStudent, List.mem_append,
      List.mem_singleton] at h
    rcases h with h | rfl
    · exact hs s h
    · exact construct_consistent P s hc
  | deleteStudent id =>
    intro s h
    simp only [Operation.apply, StudentGroup.deleteStudent] at h
    exact hs s (List.mem_filter.mp h).1
  | updateStudent id updatedData =>
    intro s h
    simp only [Operation.apply, StudentGroup.updateStudent] at h
    cases hf : findIndex (fun student : Student => decide (student.id = id)) state.1.students with
    | none =>
      rw [hf] at h
      exact hs s h
    | some index =>
      rw [hf] at h
      rcases mem_modify _ _ _ _ h with h | ⟨y, hy, rfl⟩
      · exact hs s h
      · exact update_consistent P y updatedData (hs y hy) hc

theorem foldl_consistent (P : Platform) (calls : List Operation)
    (state : StudentGroup × LocalStorage) (hs : ∀ s ∈ state.1.students, Consistent P s)
    (hc : ∀ call ∈ calls, call.Regular P) :
    ∀ s ∈ (calls.foldl (Operation.apply P) state).1.students, Consistent P s := by
  induction calls generalizing state with
  | nil => exact hs
  | cons call calls ih =>
    simp only [List.foldl_cons]
    exact ih _ (apply_consistent P state call hs (hc call (by simp)))
      (fun c h => hc c (List.mem_cons_of_mem _ h))

/-- **C13 (amended).** In every roster reached from a group created over any
content of the slot (`loadFromStorage`) by any sequence of `addStudent` of a
student built by the constructor, `deleteStudent`, and `updateStudent` with
updated fields that hold `grades` whenever they hold `averageGrade`, every
record's `averageGrade` is `calculateAverage` of its current grades. And after
any `updateStudent` whose updated fields hold `grades`, the record that was
found has the new grades and the `averageGrade` that `calculateAverage` gives
for them. -/
theorem averageGrade_consistent (P : Platform) (storage : LocalStorage)
    (calls : List Operation) (hc : ∀ call ∈ calls, call.Regular P) :
    (∀ s ∈ (session P storage calls).1.students,
      s.averageGrade = calculateAverage P s.grades) ∧
    (∀ (g : StudentGroup) (slot : LocalStorage) (id : ℚ) (updatedData : UpdatedData)
      (newGrades : List ℚ) (index : ℕ),
      updatedData.grades = some newGrades →
      findIndex (fun student : Student => decide (student.id = id)) g.students = some index →
      ∃ s, (g.updateStudent P slot id updatedData).1.students[index]? = some s ∧
        s.grades = newGrades ∧ s.averageGrade = calculateAverage P newGrades) := by
  constructor
  · exact foldl_consistent P calls _ (create_consistent P storage) hc
  · intro g slot id updatedData newGrades index hg hf
    obtain ⟨y, _, _, _, h4⟩ := getElem?_modify_findIndex _
      (fun student : Student => student.update P updatedData) g.students index hf
    refine ⟨y.update P updatedData, ?_, update_grades P y updatedData newGrades hg⟩
    simp only [StudentGroup.updateStudent, hf]
    exact h4

theorem averageGrade_consistent_witness :
    (∀ call ∈ [Operation.addStudent (Student.construct asciiPlatform 5 (js "Jones") (js "Eve")
          (js "Ann") (js "0501234569") (js "e@b.com") (js "2001-02-03") (js "B") (js "Lviv")
          (js "Contract") [70, 80]),
        Operation.updateStudent 1 { grades := some [60, 61], phone := some (js "0507654321") },
        Operation.deleteStudent 5], call.Regular asciiPlatform) ∧
    (∀ s ∈ (session asciiPlatform storedOne
        [Operation.addStudent (Student.construct asciiPlatform 5 (js "Jones") (js "Eve")
          (js "Ann") (js "0501234569") (js "e@b.com") (js "2001-02-03") (js "B") (js "Lviv")
          (js "Contract") [70, 80]),
        Operation.updateStudent 1 { grades := some [60, 61], phone := some (js "0507654321") },
        Operation.deleteStudent 5]).1.students,
      s.averageGrade = calculateAverage asciiPlatform s.grades) :=
  have h : ∀ call ∈ [Operation.addStudent (Student.construct asciiPlatform 5 (js "Jones")
        (js "Eve") (js "Ann") (js "0501234569") (js "e@b.com") (js "2001-02-03") (js "B")
        (js "Lviv") (js "Contract") [70, 80]),
      Operation.updateStudent 1 { grades := some [60, 61], phone := some (js "0507654321") },
      Operation.deleteStudent 5], call.Regular asciiPlatform := by
    intro call hcall
    simp only [List.mem_cons, List.mem_singleton, List.not_mem_nil, or_false] at hcall
    rcases hcall with rfl | rfl | rfl
    · exact ⟨_, _, _, _, _, _, _, _, _, _, _, rfl⟩
    · intro h; simp at h
    · trivial
  ⟨h, (averageGrade_consistent asciiPlatform storedOne _ h).1⟩

/-- **C13 as stated fails.** On a group loaded from a slot that holds one
student, `updateStudent(1, {averageGrade: "50.00"})` leaves that student with
the grades 90 and the `averageGrade` `"50.00"`, which is not what
`calculateAverage` gives for the grades (`"90.00"`). -/
theorem averageGrade_counterexample :
    (session asciiPlatform storedOne
        [Operation.updateStudent 1 { averageGrade := some (.text (js "50.00")) }]).1.students.map
      (fun s => (s.grades, s.averageGrade, calculateAverage asciiPlatform s.grades)) =
      [([90], .text (js "50.00"), .text (js "90.00"))] := by
  decide!

end Coursework
